import Mathlib

/-!
# bodgit/srp: a shallow embedding of the SRP-6a protocol engine

The Go package `srp` is embedded as pure Lean functions.

* A `*big.Int` value is an `Int`.  The values the code raises to as an
  exponent (the random `a` and `b`, and the results of the `x` and `u`
  derivations) are unsigned and are `Nat`, so the modular-inverse path that
  `(*big.Int).Exp` takes for a negative exponent is outside the model.
* A `[]byte` is a `List (Fin 256)`; the nil slice and the empty slice are both
  `[]`.
* A pointer field that is nil until it is populated is an `Option`.
* A method that mutates its receiver and returns an `error` is a function
  returning the new receiver paired with `Option Err` (`none` is a nil error).
* The random source `crypto/rand.Reader` is the list of bytes it can deliver
  to the call at hand.
* The hash `crypto.Hash` is an arbitrary function on the written byte stream
  together with its declared digest size.
* A Go `string` is the list of its bytes.  The hex strings of the standard
  primes (embedded files of package `internal/rfc5054`) are a parameter.
-/

namespace Srp

/-- One octet. -/
abbrev Byte := Fin 256

/-- A Go byte slice. -/
abbrev Bytes := List Byte

/-- The error values of the package (`srp.go`, `client.go`), the two `io`
errors that `readBytes` wraps, a failure of the random source, a Go run-time
panic, the two errors of `encoding/hex` that `BytesFromHexString` wraps, and
`util.ErrGroupNotFound`. -/
inductive Err
  | invalidPublicKey
  | trailingBytes
  | tooBig
  | mismatchedProof
  | clientNotReady
  | eof
  | unexpectedEOF
  | randUnavailable
  | runtimePanic
  | hexLength
  | hexInvalidByte
  | groupNotFound
  deriving DecidableEq

deriving instance DecidableEq for Except

/-! ## `math/big` -/

/-- The method `(*big.Int).SetBytes`: the bytes read as a big-endian unsigned
integer. -/
def SetBytes (b : Bytes) : Nat :=
  b.foldl (fun acc d => acc * 256 + d.val) 0

/-- Big-endian digits of `n` in base 256 without leading zero, by recursion on
a bound `fuel` for the number of digits. -/
def natBytes : Nat → Nat → Bytes
  | 0, _ => []
  | fuel + 1, n =>
    if n = 0 then [] else natBytes fuel (n / 256) ++ [⟨n % 256, Nat.mod_lt n (by decide)⟩]

/-- The method `(*big.Int).Bytes`: the absolute value as a big-endian byte
slice (empty for zero).  The bound `natAbs x` always exceeds the digit count. -/
def Bytes.ofInt (x : Int) : Bytes :=
  natBytes x.natAbs x.natAbs

/-- The method `(*big.Int).Exp(x, y, m)` for an exponent `y ≥ 0`: `x ^ y` when
`m = 0`, else the least non-negative residue of `x ^ y` modulo `|m|`. -/
def bigExp (x : Int) (y : Nat) (m : Int) : Int :=
  if m = 0 then x ^ y else (x ^ y) % (m.natAbs : Int)

/-- The method `(*big.Int).Mod(x, m)`: Euclidean modulus, `0 ≤ r < |m|`.  Go
panics when `m = 0`; the model is used with `m ≠ 0`. -/
def bigMod (x m : Int) : Int :=
  x % m

/-! ## `group.go`, `srp.go`: the context -/

/-- A `crypto.Hash`: `sum` is the digest of everything written to one hash
instance, `size` is what `Size()` reports. -/
structure Hash where
  sum : Bytes → Bytes
  size : Nat

/-- The `Group` struct of `group.go`. -/
structure Group where
  G : Int
  N : Int
  Size : Int
  deriving DecidableEq

/-- The `SRP` struct of `srp.go`.  An override function receives the hash and
the group of the context (what the exported `HashBytes`, `HashInt` and
`Group` give it access to); `none` is a nil function value.  The field `g`
is a `*Group` in Go: it holds the struct the pointer refers to. -/
structure SRP where
  h : Hash
  g : Group
  x : Option (Hash → Group → Bytes → Bytes → Bytes → Nat)
  k : Option (Hash → Group → Int)
  u : Option (Hash → Group → Int → Int → Nat)

/-- The helper `util.Pad(x, n)` of `internal/util/bytes.go`. -/
def Pad (x : Int) (n : Int) : Bytes :=
  let b := Bytes.ofInt x
  if (b.length : Int) < n then
    List.replicate (n - b.length).toNat (0 : Byte) ++ b
  else b

/-- The method `SRP.HashBytes`: every part is written to one hash instance,
in order. -/
def SRP.HashBytes (s : SRP) (a : List Bytes) : Bytes :=
  s.h.sum a.flatten

/-- The method `SRP.HashInt`. -/
def SRP.HashInt (s : SRP) (a : List Bytes) : Nat :=
  SetBytes (s.HashBytes a)

/-- The method `SRP.multiplier`. -/
def SRP.multiplier (s : SRP) : Int :=
  match s.k with
  | some f => f s.h s.g
  | none => (s.HashInt [Bytes.ofInt s.g.N, Pad s.g.G s.g.Size] : Int)

/-- The method `SRP.computeA`. -/
def SRP.computeA (s : SRP) (a : Nat) : Int :=
  bigExp s.g.G a s.g.N

/-- The method `SRP.computeB`: `B = k*v + g^b % N`. -/
def SRP.computeB (s : SRP) (b : Nat) (k v : Int) : Int :=
  bigMod (k * v + bigExp s.g.G b s.g.N) s.g.N

/-- The method `SRP.computeX`: `x = H(s | H(I | ":" | P))` unless overridden. -/
def SRP.computeX (s : SRP) (identity password salt : Bytes) : Nat :=
  match s.x with
  | some f => f s.h s.g identity password salt
  | none => s.HashInt [salt, s.HashBytes [identity, [(58 : Byte)], password]]

/-- The method `SRP.computeV`. -/
def SRP.computeV (s : SRP) (x : Nat) : Int :=
  bigExp s.g.G x s.g.N

/-- The method `SRP.computeU`: `u = H(A | B)` unless overridden; a zero `u`
is an error. -/
def SRP.computeU (s : SRP) (xA xB : Int) : Except Err Nat :=
  let u : Nat :=
    match s.u with
    | some f => f s.h s.g xA xB
    | none => s.HashInt [Pad xA s.g.Size, Pad xB s.g.Size]
  if u = 0 then .error .invalidPublicKey else .ok u

/-- The method `SRP.computeClientS`: `S = ((B - kg^x) ^ (a + ux)) % N`. -/
def SRP.computeClientS (s : SRP) (a : Nat) (xB k : Int) (u x : Nat) : Int :=
  bigExp (xB - k * bigExp s.g.G x s.g.N) (a + u * x) s.g.N

/-- The method `SRP.computeServerS`: `S = ((Av^u) ^ b) % N`. -/
def SRP.computeServerS (s : SRP) (xA : Int) (b u : Nat) (v : Int) : Int :=
  bigExp (xA * bigExp v u s.g.N) b s.g.N

/-- The method `SRP.computeK`. -/
def SRP.computeK (s : SRP) (xS : Int) : Bytes :=
  s.HashBytes [Bytes.ofInt xS]

/-- The function `xorBytes(dst, x, y)` of `xor_compat.go`: the new contents of
`dst` and the returned count. -/
def xorBytes (dst x y : Bytes) : Bytes × Nat :=
  let n := x.length
  let n := if y.length < n then y.length else n
  let n := if dst.length < n then dst.length else n
  if n = 0 then (dst, n)
  else (List.zipWith (fun p q => p ^^^ q) (x.take n) (y.take n) ++ dst.drop n, n)

/-- The method `SRP.computeM1`: `M1 = H(H(N) XOR H(g) | H(U) | s | A | B | K)`. -/
def SRP.computeM1 (s : SRP) (xA xB : Int) (xK identity salt : Bytes) : Bytes :=
  let xor := List.replicate s.h.size (0 : Byte)
  let xor := (xorBytes xor (s.HashBytes [Bytes.ofInt s.g.N]) (s.HashBytes [Bytes.ofInt s.g.G])).1
  s.HashBytes [xor, s.HashBytes [identity], salt, Bytes.ofInt xA, Bytes.ofInt xB, xK]

/-- The method `SRP.computeM2`: `M2 = H(A | M | K)`. -/
def SRP.computeM2 (s : SRP) (xA : Int) (m1 xK : Bytes) : Bytes :=
  s.HashBytes [Bytes.ofInt xA, m1, xK]

/-! ## `util.go`: random bytes and the length-prefixed codec -/

/-- The function `io.ReadFull` on a reader that still holds `r`, into a buffer
of `n` bytes: the buffer and the rest of the reader, `io.EOF` when nothing
could be read, `io.ErrUnexpectedEOF` when only a part could. -/
def readFull (r : Bytes) (n : Nat) : Except Err (Bytes × Bytes) :=
  if n ≤ r.length then .ok (r.take n, r.drop n)
  else if r.length = 0 then .error .eof
  else .error .unexpectedEOF

/-- The function `randBytes(n)`; `rnd` is what the random source delivers.
`make([]byte, n)` panics for a negative `n`. -/
def randBytes (rnd : Bytes) (n : Int) : Except Err Bytes :=
  if n < 0 then .error .runtimePanic
  else
    match readFull rnd n.toNat with
    | .ok (b, _) => .ok b
    | .error _ => .error .randUnavailable

/-- The function `randBigInt(n)`. -/
def randBigInt (rnd : Bytes) (n : Int) : Except Err Nat :=
  match randBytes rnd n with
  | .error e => .error e
  | .ok b => .ok (SetBytes b)

/-- The constant `math.MaxUint16`. -/
def MaxUint16 : Nat := 65535

/-- The call `binary.Write(w, binary.BigEndian, uint16(n))`: the two bytes
written, `n` being truncated to 16 bits by the conversion. -/
def putUint16 (n : Nat) : Bytes :=
  [⟨(n % 65536) / 256 % 256, Nat.mod_lt _ (by decide)⟩, ⟨(n % 65536) % 256, Nat.mod_lt _ (by decide)⟩]

/-- The function `writeBytes(w, b)` on a `bytes.Buffer` holding `w`: the new
contents of the buffer. -/
def writeBytes (w : Bytes) (b : Bytes) : Except Err Bytes :=
  if b.length > MaxUint16 then .error .tooBig
  else .ok (w ++ putUint16 b.length ++ b)

/-- The function `readBytes(r)` on a `bytes.Reader` that still holds `r`: the
field read and the rest of the reader. -/
def readBytes (r : Bytes) : Except Err (Bytes × Bytes) :=
  match readFull r 2 with
  | .error e => .error e
  | .ok (l, r1) =>
    let length := SetBytes l
    match readFull r1 length with
    | .error e => .error e
    | .ok (b, r2) => .ok (b, r2)

/-- The call `io.CopyN(io.Discard, r, 1)`: the number of bytes copied. -/
def copyOne (r : Bytes) : Nat :=
  if r = [] then 0 else 1

/-! ## `isv.go` -/

/-- The `ISV` struct. -/
structure ISV where
  Identity : Bytes
  Salt : Bytes
  Verifier : Bytes
  deriving DecidableEq

/-- The method `ISV.MarshalBinary`. -/
def ISV.MarshalBinary (i : ISV) : Except Err Bytes :=
  match writeBytes [] i.Identity with
  | .error e => .error e
  | .ok b =>
    match writeBytes b i.Salt with
    | .error e => .error e
    | .ok b =>
      match writeBytes b i.Verifier with
      | .error e => .error e
      | .ok b => .ok b

/-- The method `ISV.UnmarshalBinary`: the receiver afterwards and the error.
A failed `i.F, err = readBytes(r)` stores the nil slice in `F`. -/
def ISV.UnmarshalBinary (i : ISV) (b : Bytes) : ISV × Option Err :=
  match readBytes b with
  | .error e => ({ i with Identity := [] }, some e)
  | .ok (identity, r) =>
    let i := { i with Identity := identity }
    match readBytes r with
    | .error e => ({ i with Salt := [] }, some e)
    | .ok (salt, r) =>
      let i := { i with Salt := salt }
      match readBytes r with
      | .error e => ({ i with Verifier := [] }, some e)
      | .ok (verifier, r) =>
        let i := { i with Verifier := verifier }
        if copyOne r > 0 then (i, some .trailingBytes) else (i, none)

/-- The method `SRP.NewISV`; `rnd` is what the random source delivers. -/
def SRP.NewISV (s : SRP) (identity password : Bytes) (rnd : Bytes) : Except Err ISV :=
  match randBytes rnd s.g.Size with
  | .error e => .error e
  | .ok salt =>
    .ok { Identity := identity, Salt := salt,
          Verifier := Bytes.ofInt (s.computeV (s.computeX identity password salt)) }

/-! ## `crypto/subtle` -/

/-- The function `subtle.ConstantTimeByteEq(x, y)`:
`int((uint32(x^y) - 1) >> 31)`. -/
def ConstantTimeByteEq (x y : Byte) : Nat :=
  (((x ^^^ y).val + 4294967296 - 1) % 4294967296) / 2147483648

/-- The function `subtle.ConstantTimeCompare(x, y)`. -/
def ConstantTimeCompare (x y : Bytes) : Nat :=
  if x.length ≠ y.length then 0
  else
    let v := (List.zipWith (fun p q => p ^^^ q) x y).foldl (fun v d => v ||| d) (0 : Byte)
    ConstantTimeByteEq v 0

/-! ## `server.go` -/

/-- The `Server` struct; the four `*big.Int` fields are nil (`none`) in a
server made by `new(Server)`. -/
structure Server where
  xA : Option Int
  b : Option Int
  xB : Option Int
  xS : Option Int
  salt : Bytes
  xK : Bytes
  m1 : Bytes
  m2 : Bytes
  deriving DecidableEq

/-- The value `new(Server)`. -/
def Server.zero : Server :=
  { xA := none, b := none, xB := none, xS := none, salt := [], xK := [], m1 := [], m2 := [] }

/-- The method `Server.Reset`: the receiver afterwards and the error; `rnd` is
what the random source delivers. -/
def Server.Reset (s : Server) (srp : SRP) (i : ISV) (xA : Bytes) (rnd : Bytes) :
    Server × Option Err :=
  let a : Int := SetBytes xA
  if bigMod a srp.g.N = 0 then (s, some .invalidPublicKey)
  else
    match randBigInt rnd srp.g.Size with
    | .error e => (s, some e)
    | .ok b =>
      let v : Int := SetBytes i.Verifier
      let xB := srp.computeB b srp.multiplier v
      let s := { s with xA := some a, b := some (b : Int), xB := some xB, salt := i.Salt }
      match srp.computeU a xB with
      | .error e => (s, some e)
      | .ok u =>
        let xS := srp.computeServerS a b u v
        let xK := srp.computeK xS
        let m1 := srp.computeM1 a xB xK i.Identity i.Salt
        let m2 := srp.computeM2 a m1 xK
        ({ s with xS := some xS, xK := xK, m1 := m1, m2 := m2 }, none)

/-- The method `SRP.NewServer`: the server returned, and the error. -/
def SRP.NewServer (s : SRP) (i : ISV) (xA : Bytes) (rnd : Bytes) : Server × Option Err :=
  Server.zero.Reset s i xA rnd

/-- The method `Server.Salt`. -/
def Server.Salt (s : Server) : Bytes :=
  s.salt

/-- The call `x.Bytes()` through a pointer: a nil pointer panics. -/
def ptrBytes (x : Option Int) : Except Err Bytes :=
  match x with
  | none => .error .runtimePanic
  | some v => .ok (Bytes.ofInt v)

/-- The method `Server.B`. -/
def Server.B (s : Server) : Except Err Bytes :=
  ptrBytes s.xB

/-- The method `Server.Check`. -/
def Server.Check (s : Server) (m1 : Bytes) : Except Err Bytes :=
  if ConstantTimeCompare m1 s.m1 ≠ 1 then .error .mismatchedProof
  else .ok s.m2

/-- The method `Server.Key`. -/
def Server.Key (s : Server) : Bytes :=
  s.xK

/-- One step of `Server.MarshalBinary` on a `*big.Int` field:
`writeBytes(b, x.Bytes())`. -/
def writeInt (w : Bytes) (x : Option Int) : Except Err Bytes :=
  match ptrBytes x with
  | .error e => .error e
  | .ok xb => writeBytes w xb

/-- The method `Server.MarshalBinary`. -/
def Server.MarshalBinary (s : Server) : Except Err Bytes :=
  match writeInt [] s.xA with
  | .error e => .error e
  | .ok b =>
  match writeInt b s.b with
  | .error e => .error e
  | .ok b =>
  match writeInt b s.xB with
  | .error e => .error e
  | .ok b =>
  match writeInt b s.xS with
  | .error e => .error e
  | .ok b =>
  match writeBytes b s.salt with
  | .error e => .error e
  | .ok b =>
  match writeBytes b s.xK with
  | .error e => .error e
  | .ok b =>
  match writeBytes b s.m1 with
  | .error e => .error e
  | .ok b =>
  match writeBytes b s.m2 with
  | .error e => .error e
  | .ok b => .ok b

/-- The method `Server.UnmarshalBinary`: the receiver afterwards and the
error.  A `*big.Int` field is stored only after its bytes were read; a failed
`s.f, err = readBytes(r)` stores the nil slice in `f`. -/
def Server.UnmarshalBinary (s : Server) (b : Bytes) : Server × Option Err :=
  match readBytes b with
  | .error e => (s, some e)
  | .ok (xA, r) =>
  let s := { s with xA := some (SetBytes xA : Int) }
  match readBytes r with
  | .error e => (s, some e)
  | .ok (bb, r) =>
  let s := { s with b := some (SetBytes bb : Int) }
  match readBytes r with
  | .error e => (s, some e)
  | .ok (xB, r) =>
  let s := { s with xB := some (SetBytes xB : Int) }
  match readBytes r with
  | .error e => (s, some e)
  | .ok (xS, r) =>
  let s := { s with xS := some (SetBytes xS : Int) }
  match readBytes r with
  | .error e => ({ s with salt := [] }, some e)
  | .ok (salt, r) =>
  let s := { s with salt := salt }
  match readBytes r with
  | .error e => ({ s with xK := [] }, some e)
  | .ok (xK, r) =>
  let s := { s with xK := xK }
  match readBytes r with
  | .error e => ({ s with m1 := [] }, some e)
  | .ok (m1, r) =>
  let s := { s with m1 := m1 }
  match readBytes r with
  | .error e => ({ s with m2 := [] }, some e)
  | .ok (m2, r) =>
  let s := { s with m2 := m2 }
  if copyOne r > 0 then (s, some .trailingBytes) else (s, none)

/-! ## `client.go` -/

/-- The `Client` struct.  `a` and `xA` are set by `NewClient`; `xB`, `xS` and
`u` are nil (`none`) until `Compute` stores them. -/
structure Client where
  s : SRP
  identity : Bytes
  password : Bytes
  salt : Bytes
  a : Nat
  xA : Int
  xB : Option Int
  xS : Option Int
  u : Option Nat
  m1 : Bytes
  m2 : Bytes

/-- The method `SRP.NewClient`; `rnd` is what the random source delivers. -/
def SRP.NewClient (s : SRP) (identity password : Bytes) (rnd : Bytes) : Except Err Client :=
  match randBigInt rnd s.g.Size with
  | .error e => .error e
  | .ok a =>
    .ok { s := s, identity := identity, password := password, salt := [], a := a,
          xA := s.computeA a, xB := none, xS := none, u := none, m1 := [], m2 := [] }

/-- The method `Client.A`. -/
def Client.A (c : Client) : Bytes :=
  Bytes.ofInt c.xA

/-- The method `Client.SetIdentity`. -/
def Client.SetIdentity (c : Client) (identity : Bytes) : Client :=
  { c with identity := identity }

/-- The method `Client.Compute`: the receiver afterwards and what is
returned.  `c.u, err = computeU(...)` stores nil in `u` when it fails. -/
def Client.Compute (c : Client) (salt xB : Bytes) : Client × Except Err Bytes :=
  let b : Int := SetBytes xB
  if bigMod b c.s.g.N = 0 then (c, .error .invalidPublicKey)
  else
    let c := { c with xB := some b, salt := salt }
    match c.s.computeU c.xA b with
    | .error e => ({ c with u := none }, .error e)
    | .ok u =>
      let xS := c.s.computeClientS c.a b c.s.multiplier u
        (c.s.computeX c.identity c.password c.salt)
      let m1 := c.s.computeM1 c.xA b (c.s.computeK xS) c.identity c.salt
      let m2 := c.s.computeM2 c.xA m1 (c.s.computeK xS)
      ({ c with u := some u, xS := some xS, m1 := m1, m2 := m2 }, .ok m1)

/-- The method `Client.Check`. -/
def Client.Check (c : Client) (m2 : Bytes) : Option Err :=
  if ConstantTimeCompare m2 c.m2 ≠ 1 then some .mismatchedProof
  else none

/-- The method `Client.Key`: `computeK(c.xS)`, which panics on a nil `xS`. -/
def Client.Key (c : Client) : Except Err Bytes :=
  match c.xS with
  | none => .error .runtimePanic
  | some xS => .ok (c.s.computeK xS)

/-! ## `internal/util/bytes.go`, `group.go`: groups from hex strings -/

/-- A byte of a Go string is one of the characters `[0-9a-fA-F]`. -/
def isHexDigit (c : Byte) : Bool :=
  (48 ≤ c.val && c.val ≤ 57) || (97 ≤ c.val && c.val ≤ 102) || (65 ≤ c.val && c.val ≤ 70)

/-- The table `reverseHexTable` of `encoding/hex`: the value of a hex digit,
255 for any other byte. -/
def fromHexChar (c : Byte) : Nat :=
  if 48 ≤ c.val ∧ c.val ≤ 57 then c.val - 48
  else if 97 ≤ c.val ∧ c.val ≤ 102 then c.val - 97 + 10
  else if 65 ≤ c.val ∧ c.val ≤ 70 then c.val - 65 + 10
  else 255

/-- The function `hex.DecodeString`: two characters give one byte
`(a << 4) | b`; a character that is no hex digit is an `InvalidByteError`, an
odd length is `ErrLength`. -/
def hexDecode : Bytes → Except Err Bytes
  | [] => .ok []
  | [p] => if fromHexChar p > 15 then .error .hexInvalidByte else .error .hexLength
  | p :: q :: rest =>
    if fromHexChar p > 15 then .error .hexInvalidByte
    else if fromHexChar q > 15 then .error .hexInvalidByte
    else
      match hexDecode rest with
      | .error e => .error e
      | .ok bs => .ok (⟨(fromHexChar p * 16 + fromHexChar q) % 256, Nat.mod_lt _ (by decide)⟩ :: bs)

/-- The function `util.BytesFromHexString`; the string is given by its bytes.
The regular expression `[^0-9a-fA-F]` removes every character that is no hex
digit (the bytes of a multi-byte character are none). -/
def BytesFromHexString (s : Bytes) : Except Err Bytes :=
  hexDecode (s.filter isHexDigit)

/-- The function `NewGroup(g, size, s)`. -/
def NewGroup (g : Int) (size : Int) (s : Bytes) : Except Err Group :=
  match BytesFromHexString s with
  | .error e => .error e
  | .ok b => .ok { G := g, N := (SetBytes b : Int), Size := size >>> 3 }

/-- The function `util.Must`: an error panics. -/
def Must {α : Type} (v : Except Err α) : Except Err α :=
  match v with
  | .error _ => .error .runtimePanic
  | .ok x => .ok x

/-- The hex strings of package `internal/rfc5054` (the embedded files
`prime/*.txt`), given by their bytes. -/
structure PrimeTables where
  Hex1024 : Bytes
  Hex1536 : Bytes
  Hex2048 : Bytes
  Hex3072 : Bytes
  Hex4096 : Bytes
  Hex6144 : Bytes
  Hex8192 : Bytes

/-- The package variable `rfcGroups`: the map as the list of its entries, or
the panic of `util.Must` during package initialization. -/
def rfcGroups (p : PrimeTables) : Except Err (List (Int × Group)) :=
  match Must (NewGroup 2 1024 p.Hex1024) with
  | .error e => .error e
  | .ok g1024 =>
  match Must (NewGroup 2 1536 p.Hex1536) with
  | .error e => .error e
  | .ok g1536 =>
  match Must (NewGroup 2 2048 p.Hex2048) with
  | .error e => .error e
  | .ok g2048 =>
  match Must (NewGroup 5 3072 p.Hex3072) with
  | .error e => .error e
  | .ok g3072 =>
  match Must (NewGroup 5 4096 p.Hex4096) with
  | .error e => .error e
  | .ok g4096 =>
  match Must (NewGroup 5 6144 p.Hex6144) with
  | .error e => .error e
  | .ok g6144 =>
  match Must (NewGroup 19 8192 p.Hex8192) with
  | .error e => .error e
  | .ok g8192 =>
    .ok [(1024, g1024), (1536, g1536), (2048, g2048), (3072, g3072), (4096, g4096),
      (6144, g6144), (8192, g8192)]

/-- The function `GetGroup(n)`, in a program whose package initialization
built `rfcGroups` from the tables `p`. -/
def GetGroup (p : PrimeTables) (n : Int) : Except Err Group :=
  match rfcGroups p with
  | .error e => .error e
  | .ok m =>
    match m.lookup n with
    | none => .error .groupNotFound
    | some group => .ok group

/-! ## `srp.go`: construction and options -/

/-- An option of `NewSRP`: a `func(*SRP) error`, as the context afterwards and
the error. -/
abbrev SRPOption := SRP → SRP × Option Err

/-- The method `SRP.setOption`: the options are applied in order and the first
error is returned. -/
def SRP.setOption (s : SRP) : List SRPOption → SRP × Option Err
  | [] => (s, none)
  | option :: rest =>
    match option s with
    | (s1, some e) => (s1, some e)
    | (s1, none) => SRP.setOption s1 rest

/-- The function `NewSRP(hash, group, options...)`. -/
def NewSRP (hash : Hash) (group : Group) (options : List SRPOption) : Except Err SRP :=
  match SRP.setOption { h := hash, g := group, x := none, k := none, u := none } options with
  | (_, some e) => .error e
  | (s, none) => .ok s

/-- The option `K(f)`; `none` is a nil function. -/
def K (f : Option (Hash → Group → Int)) : SRPOption :=
  fun s => ({ s with k := f }, none)

/-- The option `X(f)`. -/
def X (f : Option (Hash → Group → Bytes → Bytes → Bytes → Nat)) : SRPOption :=
  fun s => ({ s with x := f }, none)

/-- The option `U(f)`. -/
def U (f : Option (Hash → Group → Int → Int → Nat)) : SRPOption :=
  fun s => ({ s with u := f }, none)

/-- The method `SRP.SetK`: the context afterwards and the error. -/
def SRP.SetK (s : SRP) (f : Option (Hash → Group → Int)) : SRP × Option Err :=
  s.setOption [K f]

/-- The method `SRP.SetX`. -/
def SRP.SetX (s : SRP) (f : Option (Hash → Group → Bytes → Bytes → Bytes → Nat)) :
    SRP × Option Err :=
  s.setOption [X f]

/-- The method `SRP.SetU`. -/
def SRP.SetU (s : SRP) (f : Option (Hash → Group → Int → Int → Nat)) : SRP × Option Err :=
  s.setOption [U f]

/-- The method `SRP.Group`.  The Go method returns the pointer `s.g` itself,
not a copy: what is returned here is the struct that pointer refers to, and
an assignment that a caller makes through the pointer is `SRP.assignGroup`. -/
def SRP.Group (s : SRP) : Group :=
  s.g

/-- The three fields of the `Group` struct of `group.go`, all exported. -/
inductive GroupField
  | G
  | N
  | Size
  deriving DecidableEq

/-- A caller's assignment through the pointer that `SRP.Group` returned:
`s.Group().G = v`, `s.Group().N = v` or `s.Group().Size = v` (for `G` and `N`
also an in-place `Set` on the `*big.Int`).  The context holds that same
pointer in `s.g`, so it sees the new value. -/
def SRP.assignGroup (s : SRP) (field : GroupField) (v : Int) : SRP :=
  match field with
  | .G => { s with g := { s.g with G := v } }
  | .N => { s with g := { s.g with N := v } }
  | .Size => { s with g := { s.g with Size := v } }

/-- One exported operation on a context: an option `K(f)`, `X(f)`, `U(f)`
applied to it, a setter, an assignment through the pointer of `Group()`, or
one of the exported functions and methods of the packages `srp` and `cognito`
that take a `*SRP`. -/
inductive SRPCall
  | applyK (f : Option (Hash → Group → Int))
  | applyX (f : Option (Hash → Group → Bytes → Bytes → Bytes → Nat))
  | applyU (f : Option (Hash → Group → Int → Int → Nat))
  | SetK (f : Option (Hash → Group → Int))
  | SetX (f : Option (Hash → Group → Bytes → Bytes → Bytes → Nat))
  | SetU (f : Option (Hash → Group → Int → Int → Nat))
  | assignGroup (field : GroupField) (v : Int)
  | Group
  | HashBytes (a : List Bytes)
  | HashInt (a : List Bytes)
  | NewISV (identity password rnd : Bytes)
  | NewClient (identity password rnd : Bytes)
  | NewServer (i : ISV) (xA rnd : Bytes)
  | ServerReset (i : ISV) (xA rnd : Bytes)
  | CognitoMultiplier
  | CognitoComputeU (xA xB : Int)
  | CognitoComputeX (identity password salt : Bytes)

/-- The context after one exported operation.  The options and the setters
store a function; `Group`, `HashBytes`, `HashInt`, `NewISV`, `NewClient`,
`NewServer`, `Server.Reset`, `cognito.Multiplier`, `cognito.ComputeU` and
`cognito.ComputeX` contain no assignment to a field of the context or of its
group, whatever they return. -/
def SRP.call (s : SRP) : SRPCall → SRP
  | .applyK f => (K f s).1
  | .applyX f => (X f s).1
  | .applyU f => (U f s).1
  | .SetK f => (s.SetK f).1
  | .SetX f => (s.SetX f).1
  | .SetU f => (s.SetU f).1
  | .assignGroup field v => s.assignGroup field v
  | .Group => s
  | .HashBytes _ => s
  | .HashInt _ => s
  | .NewISV _ _ _ => s
  | .NewClient _ _ _ => s
  | .NewServer _ _ _ => s
  | .ServerReset _ _ _ => s
  | .CognitoMultiplier => s
  | .CognitoComputeU _ _ => s
  | .CognitoComputeX _ _ _ => s

/-- The context after a sequence of exported operations. -/
def SRP.calls (s : SRP) : List SRPCall → SRP
  | [] => s
  | c :: rest => SRP.calls (s.call c) rest

/-- The method `Client.S`. -/
def Client.S (c : Client) : Except Err Bytes :=
  match c.xS with
  | none => .error .clientNotReady
  | some xS => .ok (Bytes.ofInt xS)

/-- The method `Client.U`. -/
def Client.U (c : Client) : Except Err Bytes :=
  match c.u with
  | none => .error .clientNotReady
  | some u => .ok (Bytes.ofInt (u : Int))

/-! ## `cognito/cognito.go` -/

/-- The function `cognito.Pad`: `b[0]` panics on an empty slice. -/
def Cognito.Pad (b : Bytes) : Except Err Bytes :=
  match b with
  | [] => .error .runtimePanic
  | b0 :: rest => if b0.val ≥ 128 then .ok ((0 : Byte) :: b0 :: rest) else .ok (b0 :: rest)

/-- The function `cognito.Multiplier`. -/
def Cognito.Multiplier (s : SRP) : Except Err Nat :=
  match Cognito.Pad (Bytes.ofInt s.g.N) with
  | .error e => .error e
  | .ok n => .ok (s.HashInt [n, Bytes.ofInt s.g.G])

/-- The function `cognito.ComputeU`. -/
def Cognito.ComputeU (s : SRP) (xA xB : Int) : Except Err Nat :=
  match Cognito.Pad (Bytes.ofInt xA) with
  | .error e => .error e
  | .ok a =>
    match Cognito.Pad (Bytes.ofInt xB) with
    | .error e => .error e
    | .ok b => .ok (s.HashInt [a, b])

/-- The function `cognito.ComputeX`. -/
def Cognito.ComputeX (s : SRP) (identity password salt : Bytes) : Except Err Nat :=
  match Cognito.Pad salt with
  | .error e => .error e
  | .ok p => .ok (s.HashInt [p, s.HashBytes [identity, [(58 : Byte)], password]])

/-! ## Definitions used to state the properties -/

/-- The byte string `m` with bit `j` of its byte at index `i` flipped. -/
def flipBit (m : Bytes) (i : Nat) (j : Fin 8) : Bytes :=
  m.set i (m.getD i 0 ^^^ ⟨2 ^ j.val, Nat.pow_lt_pow_right (by decide) j.isLt⟩)

/-- The frame of a byte string as the specification words it: the 2-byte
big-endian unsigned length, then the bytes. -/
def frame (x : Bytes) : Bytes :=
  [⟨x.length / 256 % 256, Nat.mod_lt _ (by decide)⟩, ⟨x.length % 256, Nat.mod_lt _ (by decide)⟩] ++ x

/-- A byte string is the minimal big-endian unsigned encoding of `n`: it reads
as `n` and has no leading zero byte. -/
def IsMinimalBE (n : Nat) (bs : Bytes) : Prop :=
  SetBytes bs = n ∧ bs.head? ≠ some 0

/-- A `*big.Int` field that is nil or holds a non-negative value. -/
def nonNeg (x : Option Int) : Bool :=
  match x with
  | none => true
  | some z => decide (0 ≤ z)

/-- A small context for concrete instances: generator 5, modulus 23, one-byte
group size, and a hash that keeps the first byte written. -/
def exampleSRP : SRP :=
  ⟨⟨fun b => b.take 1, 1⟩, ⟨5, 23, 1⟩, none, none, none⟩

/-- The client that `NewClient` makes in the example context for identity 01,
password 02 and the random byte 02. -/
def exampleClient : Client :=
  ⟨exampleSRP, [1], [2], [], 2, 2, none, none, none, [], []⟩

/-- The server that `NewServer` makes in the example context for the ISV
(01, 03, 0a), the client public value 02 and the random byte 07. -/
def exampleServer : Server :=
  ⟨some 2, some 7, some 17, some 18, [3], [18], [18], [2]⟩

/-- The encoding of `exampleServer`. -/
def exampleServerBytes : Bytes :=
  [0, 1, 2, 0, 1, 7, 0, 1, 17, 0, 1, 18, 0, 1, 3, 0, 1, 18, 0, 1, 18, 0, 1, 2]

/-- The encoding of the ISV (01, 02, 03), as in `isv_test.go`. -/
def exampleISVBytes : Bytes :=
  [0, 1, 1, 0, 1, 2, 0, 1, 3]

/-- A cut of the encoding of the fields `a`, `b`, `c` after `n` bytes ends
exactly where a field's length would begin, or immediately after the length
of a field whose body is not empty. -/
def cutAtBoundary (a b c : Bytes) (n : Nat) : Prop :=
  n = 0 ∨ n = 2 + a.length ∨ n = 4 + a.length + b.length
  ∨ (n = 2 ∧ a ≠ []) ∨ (n = 4 + a.length ∧ b ≠ [])
  ∨ (n = 6 + a.length + b.length ∧ c ≠ [])

/-- A cut of the encoding of the fields `a`, `b`, `c` after `n` bytes ends
after exactly one byte of a 2-byte length, or after at least one but not all
bytes of a field body. -/
def cutInside (a b c : Bytes) (n : Nat) : Prop :=
  n = 1 ∨ n = 3 + a.length ∨ n = 5 + a.length + b.length
  ∨ (2 < n ∧ n < 2 + a.length) ∨ (4 + a.length < n ∧ n < 4 + a.length + b.length)
  ∨ (6 + a.length + b.length < n ∧ n < 6 + a.length + b.length + c.length)

/-- The client after a `Compute` that succeeded with the scrambling parameter
`u` on the salt `salt` and the server public value `b`: the six fields hold
the newly computed values. -/
def Client.populated (c : Client) (salt : Bytes) (b : Int) (u : Nat) : Client :=
  let xS := c.s.computeClientS c.a b c.s.multiplier u (c.s.computeX c.identity c.password salt)
  let m1 := c.s.computeM1 c.xA b (c.s.computeK xS) c.identity salt
  { c with xB := some b, salt := salt, u := some u, xS := some xS, m1 := m1,
           m2 := c.s.computeM2 c.xA m1 (c.s.computeK xS) }

/-- The example context with the scrambling parameter overridden by a function
that returns 0. -/
def zeroUSRP : SRP :=
  ⟨⟨fun b => b.take 1, 1⟩, ⟨5, 23, 1⟩, none, none, some (fun _ _ _ _ => 0)⟩

/-- The client that `NewClient` makes in `zeroUSRP` for identity 01, password
02 and the random byte 02. -/
def zeroUClient : Client :=
  ⟨zeroUSRP, [1], [2], [], 2, 2, none, none, none, [], []⟩

/-- A client public value of 65536 bytes: 01 followed by 65535 zero bytes. -/
def bigPublic : Bytes :=
  (1 : Byte) :: List.replicate 65535 0

/-- The hex-digit characters of a string, in order. -/
def hexDigits (s : Bytes) : Bytes :=
  s.filter isHexDigit

/-- The unsigned integer whose big-endian hex digits are the given hex-digit
characters. -/
def hexValue (d : Bytes) : Nat :=
  d.foldl (fun acc c => acc * 16 + fromHexChar c) 0

/-- The generator the specification lists for a standard group size. -/
def standardGenerator (n : Int) : Int :=
  if n = 1024 ∨ n = 1536 ∨ n = 2048 then 2
  else if n = 3072 ∨ n = 4096 ∨ n = 6144 then 5
  else 19

/-- Prime tables for concrete instances: every table holds the hex string
`17`, the number 23. -/
def examplePrimes : PrimeTables :=
  ⟨[49, 55], [49, 55], [49, 55], [49, 55], [49, 55], [49, 55], [49, 55]⟩

/-- The registry that `rfcGroups` builds from `examplePrimes`. -/
def exampleRegistry : List (Int × Group) :=
  [(1024, ⟨2, 23, 128⟩), (1536, ⟨2, 23, 192⟩), (2048, ⟨2, 23, 256⟩), (3072, ⟨5, 23, 384⟩),
    (4096, ⟨5, 23, 512⟩), (6144, ⟨5, 23, 768⟩), (8192, ⟨19, 23, 1024⟩)]

/-- One call on a client. -/
inductive ClientCall
  | Compute (salt xB : Bytes)
  | SetIdentity (identity : Bytes)

/-- The client after one call, and whether the call was a `Compute` that
returned no error. -/
def Client.call (c : Client) : ClientCall → Client × Bool
  | .Compute salt xB =>
    match c.Compute salt xB with
    | (c1, .ok _) => (c1, true)
    | (c1, .error _) => (c1, false)
  | .SetIdentity identity => (c.SetIdentity identity, false)

/-- The client after a sequence of calls, and whether some `Compute` among
them returned no error. -/
def Client.calls (c : Client) : List ClientCall → Client × Bool
  | [] => (c, false)
  | call :: rest =>
    let r := c.call call
    let q := Client.calls r.1 rest
    (q.1, r.2 || q.2)

/-- A hash for concrete instances whose digest always has one byte: the sum
of the bytes written, modulo 256. -/
def sumHash : Hash :=
  ⟨fun b => [⟨(b.foldl (fun a d => a + d.val) 0) % 256, Nat.mod_lt _ (by decide)⟩], 1⟩

/-- The example context with `sumHash`. -/
def sumSRP : SRP :=
  ⟨sumHash, ⟨5, 23, 1⟩, none, none, none⟩

/-- Whether the operation stores a multiplier function: the option `K(f)`
applied to the context, or `SetK`. -/
def SRPCall.setsK : SRPCall → Bool
  | .applyK _ => true
  | .SetK _ => true
  | _ => false

/-- Whether the operation stores a private-key derivation: the option `X(f)`
applied to the context, or `SetX`. -/
def SRPCall.setsX : SRPCall → Bool
  | .applyX _ => true
  | .SetX _ => true
  | _ => false

/-- Whether the operation stores a scrambling function: the option `U(f)`
applied to the context, or `SetU`. -/
def SRPCall.setsU : SRPCall → Bool
  | .applyU _ => true
  | .SetU _ => true
  | _ => false

/-- Whether the operation is an assignment through the pointer of `Group()`. -/
def SRPCall.writesGroup : SRPCall → Bool
  | .assignGroup _ _ => true
  | _ => false

/-- A sequence of exported operations on the example context that stores a
derivation of the private key and a scrambling function, and neither a
multiplier function nor anything in the group. -/
def exampleCalls : List SRPCall :=
  [.HashInt [[1]], .SetX (some (fun _ _ _ _ _ => 3)), .NewClient [1] [2] [4], .Group,
    .applyU (some (fun _ _ _ _ => 2)), .CognitoMultiplier]

/-- A sequence of exported operations on the example context that stores a
multiplier function and the group size, and neither of the other two
functions. -/
def exampleCallsK : List SRPCall :=
  [.SetK (some (fun _ _ => 1)), .NewISV [1] [2] [4], .assignGroup .Size 2, .HashBytes [[1]]]

/-! ## Arithmetic lemmas -/

theorem bigExp_pos (x : Int) (y : Nat) (m : Int) (hm : 0 < m) :
    bigExp x y m = (x ^ y) % m := by
  have h0 : m ≠ 0 := ne_of_gt hm
  have habs : (m.natAbs : Int) = m := Int.natAbs_of_nonneg (le_of_lt hm)
  simp [bigExp, h0, habs]

theorem bigExp_modEq (x : Int) (y : Nat) (m : Int) (hm : 0 < m) :
    bigExp x y m ≡ x ^ y [ZMOD m] := by
  rw [bigExp_pos x y m hm]
  exact Int.mod_modEq _ _

theorem bigExp_eq_of_modEq (x y : Int) (e f : Nat) (m : Int) (hm : 0 < m)
    (h : x ^ e ≡ y ^ f [ZMOD m]) : bigExp x e m = bigExp y f m := by
  rw [bigExp_pos x e m hm, bigExp_pos y f m hm]
  exact h

/-- Both sides raise the generator to `b * (a + u * x)` modulo `N`. -/
theorem premaster_agree (s : SRP) (hN : 0 < s.g.N) (a b x u : Nat) (k : Int) :
    s.computeClientS a (s.computeB b k (s.computeV x)) k u x
      = s.computeServerS (s.computeA a) b u (s.computeV x) := by
  unfold SRP.computeClientS SRP.computeServerS SRP.computeB SRP.computeV SRP.computeA bigMod
  have hb : (k * bigExp s.g.G x s.g.N + bigExp s.g.G b s.g.N) % s.g.N
      - k * bigExp s.g.G x s.g.N ≡ s.g.G ^ b [ZMOD s.g.N] := by
    have h1 : (k * bigExp s.g.G x s.g.N + bigExp s.g.G b s.g.N) % s.g.N
        ≡ k * bigExp s.g.G x s.g.N + bigExp s.g.G b s.g.N [ZMOD s.g.N] :=
      Int.mod_modEq _ _
    have h2 := (h1.sub (Int.ModEq.refl (k * bigExp s.g.G x s.g.N)))
    have h3 : k * bigExp s.g.G x s.g.N + bigExp s.g.G b s.g.N - k * bigExp s.g.G x s.g.N
        = bigExp s.g.G b s.g.N := by ring
    rw [h3] at h2
    exact h2.trans (bigExp_modEq _ _ _ hN)
  have hs : bigExp s.g.G a s.g.N * bigExp (bigExp s.g.G x s.g.N) u s.g.N
      ≡ s.g.G ^ (a + u * x) [ZMOD s.g.N] := by
    have h1 := bigExp_modEq s.g.G a s.g.N hN
    have h2 : bigExp (bigExp s.g.G x s.g.N) u s.g.N ≡ (s.g.G ^ x) ^ u [ZMOD s.g.N] :=
      (bigExp_modEq _ u _ hN).trans ((bigExp_modEq s.g.G x _ hN).pow u)
    have h3 := h1.mul h2
    have h4 : s.g.G ^ a * (s.g.G ^ x) ^ u = s.g.G ^ (a + u * x) := by
      rw [← pow_mul, ← pow_add, Nat.mul_comm x u]
    rw [h4] at h3
    exact h3
  have hl := hb.pow (a + u * x)
  have hr := hs.pow b
  have he : (s.g.G ^ b) ^ (a + u * x) = (s.g.G ^ (a + u * x)) ^ b := by
    rw [← pow_mul, ← pow_mul, Nat.mul_comm]
  rw [he] at hl
  exact bigExp_eq_of_modEq _ _ _ _ _ hN (hl.trans hr.symm)

/-- Claim C1.  Premaster-secret agreement: for a group with modulus `N > 0`
and any generator, and for all `a`, `b`, `x`, `u` (naturals) and every integer
`k`, with `v = computeV x`, `A = computeA a` and `B = computeB b k v`, the
client's `computeClientS a B k u x` equals the server's
`computeServerS A b u v`, also when `B - k * (g^x mod N)` is negative. -/
theorem computeClientS_eq_computeServerS (s : SRP) (hN : 0 < s.g.N)
    (a b x u : Nat) (k : Int) :
    s.computeClientS a (s.computeB b k (s.computeV x)) k u x
      = s.computeServerS (s.computeA a) b u (s.computeV x) :=
  premaster_agree s hN a b x u k

/-- An instance of C1 where `B - k * (g^x mod N)` is `-21`. -/
theorem computeClientS_eq_computeServerS_witness :
    (0 : Int) < exampleSRP.g.N
    ∧ exampleSRP.computeClientS 2 (exampleSRP.computeB 2 3 (exampleSRP.computeV 3)) 3 1 3
        = exampleSRP.computeServerS (exampleSRP.computeA 2) 2 1 (exampleSRP.computeV 3) :=
  ⟨by decide, computeClientS_eq_computeServerS exampleSRP (by decide) 2 2 3 1 3⟩

/-! ## Constant-time comparison and the proof checks -/

theorem nat_or_eq_zero (a b : Nat) (h : a ||| b = 0) : a = 0 ∧ b = 0 := by
  constructor
  · apply Nat.eq_of_testBit_eq
    intro i
    have := congrArg (fun n => Nat.testBit n i) h
    simp only [Nat.testBit_or, Nat.zero_testBit, Bool.or_eq_false_iff] at this
    simp [this.1]
  · apply Nat.eq_of_testBit_eq
    intro i
    have := congrArg (fun n => Nat.testBit n i) h
    simp only [Nat.testBit_or, Nat.zero_testBit, Bool.or_eq_false_iff] at this
    simp [this.2]

theorem byte_xor_val (a b : Byte) : (a ^^^ b).val = a.val ^^^ b.val := by
  have h : a.val ^^^ b.val < 2 ^ 8 := Nat.xor_lt_two_pow a.isLt b.isLt
  show (a.val ^^^ b.val) % 256 = _
  exact Nat.mod_eq_of_lt h

theorem byte_or_val (a b : Byte) : (a ||| b).val = a.val ||| b.val := by
  have h : a.val ||| b.val < 2 ^ 8 := Nat.or_lt_two_pow a.isLt b.isLt
  show (a.val ||| b.val) % 256 = _
  exact Nat.mod_eq_of_lt h

theorem byte_xor_eq_zero (a b : Byte) : a ^^^ b = 0 ↔ a = b := by
  rw [Fin.ext_iff, Fin.ext_iff, byte_xor_val]
  exact Nat.xor_eq_zero

theorem byte_or_eq_zero (a b : Byte) : a ||| b = 0 ↔ a = 0 ∧ b = 0 := by
  rw [Fin.ext_iff, Fin.ext_iff, Fin.ext_iff, byte_or_val]
  constructor
  · exact nat_or_eq_zero _ _
  · rintro ⟨h1, h2⟩
    rw [h1, h2]; rfl

theorem foldl_or_eq_zero (l : Bytes) (acc : Byte) :
    l.foldl (fun v d => v ||| d) acc = 0 ↔ acc = 0 ∧ ∀ d ∈ l, d = 0 := by
  induction l generalizing acc with
  | nil => simp
  | cons d l ih =>
    rw [List.foldl_cons, ih, byte_or_eq_zero]
    simp [and_assoc]

theorem zipWith_xor_zero (x y : Bytes) (hlen : x.length = y.length) :
    (∀ d ∈ List.zipWith (fun p q => p ^^^ q) x y, d = 0) ↔ x = y := by
  induction x generalizing y with
  | nil =>
    cases y with
    | nil => simp
    | cons b y => simp at hlen
  | cons a x ih =>
    cases y with
    | nil => simp at hlen
    | cons b y =>
      simp only [List.length_cons, Nat.add_right_cancel_iff] at hlen
      simp only [List.zipWith_cons_cons, List.mem_cons, forall_eq_or_imp, List.cons.injEq]
      rw [ih y hlen, byte_xor_eq_zero]

theorem ConstantTimeByteEq_zero (v : Byte) : ConstantTimeByteEq v 0 = 1 ↔ v = 0 := by
  have hv : (v ^^^ (0 : Byte)).val = v.val := by
    rw [byte_xor_val]; simp
  unfold ConstantTimeByteEq
  rw [hv, Fin.ext_iff]
  have := v.isLt
  show _ ↔ v.val = 0
  omega

theorem ConstantTimeCompare_eq_one (x y : Bytes) : ConstantTimeCompare x y = 1 ↔ x = y := by
  unfold ConstantTimeCompare
  by_cases hlen : x.length = y.length
  · simp only [hlen, ne_eq, not_true_eq_false, if_false]
    rw [ConstantTimeByteEq_zero, foldl_or_eq_zero, zipWith_xor_zero x y hlen]
    simp
  · simp only [ne_eq, hlen, not_false_eq_true, if_true]
    constructor
    · intro h; exact absurd h (by decide)
    · intro h; exact absurd (congrArg List.length h) hlen

theorem byte_xor_ne_self (d m : Byte) (hm : m ≠ 0) : d ^^^ m ≠ d := by
  intro h
  apply hm
  have h1 : d.val ^^^ m.val = d.val := by
    rw [← byte_xor_val]; exact congrArg Fin.val h
  have h2 : d.val ^^^ (d.val ^^^ m.val) = 0 := by rw [h1]; exact Nat.xor_self _
  rw [← Nat.xor_assoc, Nat.xor_self, Nat.zero_xor] at h2
  exact Fin.ext h2

theorem flipBit_ne (m : Bytes) (i : Fin m.length) (j : Fin 8) : flipBit m i.val j ≠ m := by
  intro h
  have h1 := congrArg (fun l => l.getD i.val 0) h
  simp only [flipBit] at h1
  rw [List.getD_eq_getElem?_getD, List.getD_eq_getElem?_getD] at h1
  rw [List.getElem?_set_self i.isLt] at h1
  simp only [Option.getD_some] at h1
  refine byte_xor_ne_self _ _ ?_ h1
  intro h2
  have h3 := congrArg Fin.val h2
  simp only [Fin.val_zero] at h3
  exact absurd h3 (Nat.pos_iff_ne_zero.mp (Nat.two_pow_pos _))

/-- Claim C5.  Server proof check: for every server and every byte string
`m1`, `Server.Check m1` returns the stored `M2` without error when `m1` equals
the stored expected `M1` (same length, same bytes) and otherwise returns the
mismatched-proof error and no `M2`; in particular the stored `M1` with any
single bit flipped is rejected. -/
theorem Server_Check_spec (s : Server) (m1 : Bytes) :
    s.Check m1 = (if m1 = s.m1 then .ok s.m2 else .error .mismatchedProof)
    ∧ ∀ (i : Fin s.m1.length) (j : Fin 8),
        s.Check (flipBit s.m1 i.val j) = .error .mismatchedProof := by
  constructor
  · unfold Server.Check
    by_cases h : m1 = s.m1
    · simp [h, (ConstantTimeCompare_eq_one s.m1 s.m1).mpr rfl]
    · have h1 : ConstantTimeCompare m1 s.m1 ≠ 1 := fun e => h ((ConstantTimeCompare_eq_one _ _).mp e)
      simp [h, h1]
  · intro i j
    have h1 : ConstantTimeCompare (flipBit s.m1 i.val j) s.m1 ≠ 1 :=
      fun e => flipBit_ne s.m1 i j ((ConstantTimeCompare_eq_one _ _).mp e)
    simp [Server.Check, h1]

/-! ## Validation of public values -/

/-- Claim C3.  Degenerate public keys are rejected on both sides: in a group
with `N > 0`, for public bytes whose big-endian value is a multiple of `N`
(zero and the empty byte string included), `Server.Reset` and `NewServer`
return `ErrInvalidPublicKey` and leave the server as it was, and
`Client.Compute` returns `ErrInvalidPublicKey` and no proof and leaves the
client as it was. -/
theorem degenerate_public_key_rejected (srp : SRP) (hN : 0 < srp.g.N) (pub : Bytes)
    (hpub : srp.g.N ∣ (SetBytes pub : Int)) (s : Server) (i : ISV) (rnd : Bytes)
    (c : Client) (salt : Bytes) :
    s.Reset srp i pub rnd = (s, some .invalidPublicKey)
    ∧ srp.NewServer i pub rnd = (Server.zero, some .invalidPublicKey)
    ∧ Client.Compute { c with s := srp } salt pub
        = ({ c with s := srp }, .error .invalidPublicKey) := by
  have _ := hN
  have h0 : bigMod (SetBytes pub : Int) srp.g.N = 0 := Int.emod_eq_zero_of_dvd hpub
  refine ⟨?_, ?_, ?_⟩
  · simp [Server.Reset, h0]
  · simp [SRP.NewServer, Server.Reset, h0]
  · simp [Client.Compute, h0]

/-- An instance of C3: the one-byte public value 23 in the group with
modulus 23, and the empty public value. -/
theorem degenerate_public_key_rejected_witness :
    ((0 : Int) < exampleSRP.g.N ∧ exampleSRP.g.N ∣ (SetBytes [23] : Int))
    ∧ (Server.zero.Reset exampleSRP ⟨[1], [2], [3]⟩ [23] [7]
          = (Server.zero, some .invalidPublicKey)
        ∧ exampleSRP.NewServer ⟨[1], [2], [3]⟩ [23] [7] = (Server.zero, some .invalidPublicKey)
        ∧ Client.Compute ⟨exampleSRP, [1], [2], [], 2, 2, none, none, none, [], []⟩ [9] [23]
            = (⟨exampleSRP, [1], [2], [], 2, 2, none, none, none, [], []⟩,
                .error .invalidPublicKey)) :=
  ⟨⟨by decide, by decide⟩,
    degenerate_public_key_rejected exampleSRP (by decide) [23] (by decide) Server.zero
      ⟨[1], [2], [3]⟩ [7] ⟨exampleSRP, [1], [2], [], 2, 2, none, none, none, [], []⟩ [9]⟩

/-- Claim C4.  Zero scrambling parameter is always rejected: `computeU A B`
returns `ErrInvalidPublicKey` exactly when the derivation in force yields 0,
and returns a value `v` exactly when `v` is that derivation's non-zero result,
both for the default `HashInt(Pad(A, Size), Pad(B, Size))` and for a
caller-supplied override `f`. -/
theorem computeU_zero_rejected (h : Hash) (g : Group)
    (x : Option (Hash → Group → Bytes → Bytes → Bytes → Nat)) (k : Option (Hash → Group → Int))
    (f : Hash → Group → Int → Int → Nat) (xA xB : Int) :
    ((SRP.mk h g x k none).computeU xA xB = .error .invalidPublicKey
        ↔ (SRP.mk h g x k none).HashInt [Pad xA g.Size, Pad xB g.Size] = 0)
    ∧ (∀ v, (SRP.mk h g x k none).computeU xA xB = .ok v
        ↔ v ≠ 0 ∧ v = (SRP.mk h g x k none).HashInt [Pad xA g.Size, Pad xB g.Size])
    ∧ ((SRP.mk h g x k (some f)).computeU xA xB = .error .invalidPublicKey ↔ f h g xA xB = 0)
    ∧ (∀ v, (SRP.mk h g x k (some f)).computeU xA xB = .ok v ↔ v ≠ 0 ∧ v = f h g xA xB) := by
  refine ⟨?_, ?_, ?_, ?_⟩
  · simp only [SRP.computeU]
    split <;> simp_all
  · intro v
    simp only [SRP.computeU]
    split
    · rename_i h0; simp; intro hv hv2; exact hv (hv2.trans h0)
    · rename_i h0; simp; constructor
      · intro e; subst e; exact ⟨h0, rfl⟩
      · intro e; exact e.2.symm
  · simp only [SRP.computeU]
    split <;> simp_all
  · intro v
    simp only [SRP.computeU]
    split
    · rename_i h0; simp; intro hv hv2; exact hv (hv2.trans h0)
    · rename_i h0; simp; constructor
      · intro e; subst e; exact ⟨h0, rfl⟩
      · intro e; exact e.2.symm

/-! ## Integers and their bytes -/

theorem SetBytes_append_singleton (l : Bytes) (d : Byte) :
    SetBytes (l ++ [d]) = SetBytes l * 256 + d.val := by
  simp [SetBytes, List.foldl_append]

theorem SetBytes_natBytes (fuel n : Nat) (h : n ≤ fuel) : SetBytes (natBytes fuel n) = n := by
  induction fuel generalizing n with
  | zero =>
    have h0 : n = 0 := by omega
    subst h0; rfl
  | succ f ih =>
    unfold natBytes
    split
    · rename_i h0; subst h0; rfl
    · rename_i h0
      rw [SetBytes_append_singleton, ih (n / 256) (by omega)]
      show n / 256 * 256 + n % 256 = n
      omega

theorem SetBytes_ofInt (x : Int) : SetBytes (Bytes.ofInt x) = x.natAbs :=
  SetBytes_natBytes _ _ (Nat.le_refl _)

theorem SetBytes_ofInt_nonneg (x : Int) (h : 0 ≤ x) : (SetBytes (Bytes.ofInt x) : Int) = x := by
  rw [SetBytes_ofInt]
  exact Int.natAbs_of_nonneg h

theorem bigExp_nonneg (x : Int) (y : Nat) (m : Int) (hm : 0 < m) : 0 ≤ bigExp x y m := by
  rw [bigExp_pos x y m hm]
  exact Int.emod_nonneg _ (ne_of_gt hm)

theorem bigMod_nonneg (x m : Int) (hm : 0 < m) : 0 ≤ bigMod x m :=
  Int.emod_nonneg _ (ne_of_gt hm)

/-! ## The handshake -/

/-- Claim C2.  Handshake agreement: in a context with `N > 0` (any hash,
default or overridden `k`, `u`, `x`), for every identity, password and outcome
of the three random draws, if `NewISV` and `NewClient` succeed, `NewServer` on
the ISV and the client's `A()` succeeds, and `Compute` on the server's salt
and `B()` returns `m1`, then `Server.Check m1` returns the server's `M2`
without error, `Client.Check` accepts that `M2`, and the client's `Key()`
equals the server's `Key()`. -/
theorem handshake_agreement (s : SRP) (hN : 0 < s.g.N)
    (identity password rndSalt rndA rndB : Bytes)
    (isv : ISV) (client : Client) (server : Server) (B m1 : Bytes)
    (hisv : s.NewISV identity password rndSalt = .ok isv)
    (hclient : s.NewClient identity password rndA = .ok client)
    (hserver : s.NewServer isv client.A rndB = (server, none))
    (hB : server.B = .ok B)
    (hcompute : (client.Compute server.Salt B).2 = .ok m1) :
    server.Check m1 = .ok server.m2
    ∧ (client.Compute server.Salt B).1.Check server.m2 = none
    ∧ (client.Compute server.Salt B).1.Key = .ok server.Key := by
  -- enrollment
  unfold SRP.NewISV at hisv
  split at hisv
  · exact absurd hisv (by simp)
  rename_i salt hsalt
  simp only [Except.ok.injEq] at hisv
  subst hisv
  -- the client
  unfold SRP.NewClient at hclient
  split at hclient
  · exact absurd hclient (by simp)
  rename_i a ha
  simp only [Except.ok.injEq] at hclient
  subst hclient
  -- the server
  have hA : (SetBytes (Bytes.ofInt (s.computeA a)) : Int) = s.computeA a :=
    SetBytes_ofInt_nonneg _ (bigExp_nonneg _ _ _ hN)
  have hV : (SetBytes (Bytes.ofInt (s.computeV (s.computeX identity password salt))) : Int)
      = s.computeV (s.computeX identity password salt) :=
    SetBytes_ofInt_nonneg _ (bigExp_nonneg _ _ _ hN)
  simp only [SRP.NewServer, Server.Reset, Client.A, hA, hV] at hserver
  split at hserver
  · simp at hserver
  split at hserver
  · simp at hserver
  rename_i b hb
  split at hserver
  · simp at hserver
  rename_i u hu
  simp only [Prod.mk.injEq, and_true] at hserver
  subst hserver
  simp only [Server.B, ptrBytes, Except.ok.injEq] at hB
  subst hB
  have hxB : (SetBytes (Bytes.ofInt (s.computeB b s.multiplier
      (s.computeV (s.computeX identity password salt)))) : Int)
      = s.computeB b s.multiplier (s.computeV (s.computeX identity password salt)) :=
    SetBytes_ofInt_nonneg _ (bigMod_nonneg _ _ hN)
  simp only [Client.Compute, Server.Salt, hxB, hu] at hcompute ⊢
  split at hcompute
  · simp at hcompute
  rename_i hne
  simp only [hne, if_false, Except.ok.injEq] at hcompute ⊢
  subst hcompute
  have hS := premaster_agree s hN a b (s.computeX identity password salt) u s.multiplier
  have hc : ∀ z : Bytes, ConstantTimeCompare z z = 1 :=
    fun z => (ConstantTimeCompare_eq_one z z).mpr rfl
  rw [hS]
  simp [Server.Check, Client.Check, Client.Key, Server.Key, hc]

/-- An instance of C2: identity 01, password 02, salt 03, `a = 2`, `b = 7`
in the example context. -/
theorem handshake_agreement_witness :
    ((0 : Int) < exampleSRP.g.N
      ∧ exampleSRP.NewISV [1] [2] [3] = .ok ⟨[1], [3], [10]⟩
      ∧ exampleSRP.NewClient [1] [2] [2] = .ok exampleClient
      ∧ exampleSRP.NewServer ⟨[1], [3], [10]⟩ exampleClient.A [7] = (exampleServer, none)
      ∧ exampleServer.B = .ok [17]
      ∧ (exampleClient.Compute exampleServer.Salt [17]).2 = .ok [18])
    ∧ (exampleServer.Check [18] = .ok exampleServer.m2
      ∧ (exampleClient.Compute exampleServer.Salt [17]).1.Check exampleServer.m2 = none
      ∧ (exampleClient.Compute exampleServer.Salt [17]).1.Key = .ok exampleServer.Key) :=
  ⟨⟨by decide, by decide, rfl, by decide, by decide, by decide⟩,
    handshake_agreement exampleSRP (by decide) [1] [2] [3] [2] [7] ⟨[1], [3], [10]⟩
      exampleClient exampleServer [17] [18] (by decide) rfl (by decide) (by decide)
      (by decide)⟩

/-! ## The length-prefixed codec -/

theorem putUint16_eq (n : Nat) (h : n ≤ 65535) :
    putUint16 n = [⟨n / 256 % 256, Nat.mod_lt _ (by decide)⟩, ⟨n % 256, Nat.mod_lt _ (by decide)⟩] := by
  have h1 : n % 65536 = n := Nat.mod_eq_of_lt (by omega)
  simp only [putUint16, h1]

theorem writeBytes_ok (w b : Bytes) (h : b.length ≤ 65535) :
    writeBytes w b = .ok (w ++ frame b) := by
  have h1 : ¬ b.length > MaxUint16 := by simp only [MaxUint16]; omega
  simp only [writeBytes, h1, if_false, frame, putUint16_eq _ h, List.append_assoc]

theorem writeBytes_tooBig (w b : Bytes) (h : 65535 < b.length) :
    writeBytes w b = .error .tooBig := by
  have h1 : b.length > MaxUint16 := by simp only [MaxUint16]; omega
  simp only [writeBytes, h1, if_true]

theorem writeBytes_eq_ok (w b e : Bytes) (h : writeBytes w b = .ok e) :
    b.length ≤ 65535 ∧ e = w ++ frame b := by
  by_cases hb : b.length ≤ 65535
  · rw [writeBytes_ok w b hb] at h
    simp only [Except.ok.injEq] at h
    exact ⟨hb, h.symm⟩
  · rw [writeBytes_tooBig w b (by omega)] at h
    exact absurd h (by simp)

theorem readFull_append (a r : Bytes) : readFull (a ++ r) a.length = .ok (a, r) := by
  simp [readFull]

theorem readBytes_frame (b rest : Bytes) (h : b.length ≤ 65535) :
    readBytes (frame b ++ rest) = .ok (b, rest) := by
  have h2 : readFull (frame b ++ rest) 2
      = .ok ([⟨b.length / 256 % 256, Nat.mod_lt _ (by decide)⟩,
              ⟨b.length % 256, Nat.mod_lt _ (by decide)⟩], b ++ rest) := by
    simp [readFull, frame]
  have h3 : SetBytes [(⟨b.length / 256 % 256, Nat.mod_lt _ (by decide)⟩ : Byte),
      ⟨b.length % 256, Nat.mod_lt _ (by decide)⟩] = b.length := by
    simp only [SetBytes, List.foldl_cons, List.foldl_nil]
    omega
  simp only [readBytes, h2, h3, readFull_append]

theorem readFull_append_right (r t : Bytes) (n : Nat) (b r1 : Bytes)
    (h : readFull r n = .ok (b, r1)) : readFull (r ++ t) n = .ok (b, r1 ++ t) := by
  unfold readFull at h ⊢
  by_cases hn : n ≤ r.length
  · have hn2 : n ≤ (r ++ t).length := by simp; omega
    simp only [hn, hn2, if_true, Except.ok.injEq, Prod.mk.injEq] at h ⊢
    obtain ⟨h1, h2⟩ := h
    subst h1; subst h2
    exact ⟨List.take_append_of_le_length hn, List.drop_append_of_le_length hn⟩
  · simp only [hn, if_false] at h
    split at h <;> exact absurd h (by simp)

theorem readBytes_append_right (r t b r1 : Bytes) (h : readBytes r = .ok (b, r1)) :
    readBytes (r ++ t) = .ok (b, r1 ++ t) := by
  unfold readBytes at h ⊢
  cases h2 : readFull r 2 with
  | error e => rw [h2] at h; exact absurd h (by simp)
  | ok p =>
    obtain ⟨l, r2⟩ := p
    rw [h2] at h
    rw [readFull_append_right r t 2 l r2 h2]
    simp only at h ⊢
    cases h3 : readFull r2 (SetBytes l) with
    | error e => rw [h3] at h; exact absurd h (by simp)
    | ok q =>
      obtain ⟨b2, r3⟩ := q
      rw [h3] at h
      rw [readFull_append_right r2 t _ b2 r3 h3]
      simp only [Except.ok.injEq, Prod.mk.injEq] at h ⊢
      exact ⟨h.1, by rw [h.2]⟩

/-! ## The ISV encoding -/

theorem ISV_MarshalBinary_ok (i : ISV) (h1 : i.Identity.length ≤ 65535)
    (h2 : i.Salt.length ≤ 65535) (h3 : i.Verifier.length ≤ 65535) :
    i.MarshalBinary = .ok (frame i.Identity ++ frame i.Salt ++ frame i.Verifier) := by
  simp only [ISV.MarshalBinary, writeBytes_ok _ _ h1, writeBytes_ok _ _ h2, writeBytes_ok _ _ h3,
    List.nil_append]

theorem ISV_MarshalBinary_tooBig (i : ISV)
    (h : 65535 < i.Identity.length ∨ 65535 < i.Salt.length ∨ 65535 < i.Verifier.length) :
    i.MarshalBinary = .error .tooBig := by
  unfold ISV.MarshalBinary
  by_cases h1 : i.Identity.length ≤ 65535
  · rw [writeBytes_ok _ _ h1]
    by_cases h2 : i.Salt.length ≤ 65535
    · have h3 : 65535 < i.Verifier.length := by omega
      simp only [writeBytes_ok _ _ h2, writeBytes_tooBig _ _ h3]
    · simp only [writeBytes_tooBig _ _ (Nat.lt_of_not_le h2)]
  · simp only [writeBytes_tooBig _ _ (Nat.lt_of_not_le h1)]

theorem readBytes_frame_nil (b : Bytes) (h : b.length ≤ 65535) :
    readBytes (frame b) = .ok (b, []) := by
  have := readBytes_frame b [] h
  rwa [List.append_nil] at this

theorem ISV_UnmarshalBinary_frames (i0 : ISV) (a b c : Bytes) (h1 : a.length ≤ 65535)
    (h2 : b.length ≤ 65535) (h3 : c.length ≤ 65535) :
    i0.UnmarshalBinary (frame a ++ frame b ++ frame c) = (⟨a, b, c⟩, none) := by
  simp [ISV.UnmarshalBinary, readBytes_frame _ _ h1, readBytes_frame _ _ h2,
    readBytes_frame_nil _ h3, copyOne]

/-- Claim C8.  ISV encoding and oversized-field rejection: for every ISV,
`MarshalBinary` returns `ErrTooBig` (and no bytes) if and only if at least one
of Identity, Salt, Verifier is longer than 65535 bytes; it returns bytes `e`
if and only if none is and `e` is exactly
`frame Identity ++ frame Salt ++ frame Verifier`; and the ISV (01, 02, 03)
encodes to 00 01 01 00 01 02 00 01 03. -/
theorem ISV_MarshalBinary_spec (i : ISV) :
    (i.MarshalBinary = .error .tooBig
      ↔ (65535 < i.Identity.length ∨ 65535 < i.Salt.length ∨ 65535 < i.Verifier.length))
    ∧ (∀ e, i.MarshalBinary = .ok e
      ↔ (¬ (65535 < i.Identity.length ∨ 65535 < i.Salt.length ∨ 65535 < i.Verifier.length)
          ∧ e = frame i.Identity ++ frame i.Salt ++ frame i.Verifier))
    ∧ (ISV.mk [1] [2] [3]).MarshalBinary = .ok [0, 1, 1, 0, 1, 2, 0, 1, 3] := by
  by_cases h : 65535 < i.Identity.length ∨ 65535 < i.Salt.length ∨ 65535 < i.Verifier.length
  · have hm := ISV_MarshalBinary_tooBig i h
    refine ⟨?_, ?_, by decide⟩
    · simp [hm, h]
    · intro e; simp [hm, h]
  · have hm := ISV_MarshalBinary_ok i (by omega) (by omega) (by omega)
    refine ⟨?_, ?_, by decide⟩
    · simp [hm, h]
    · intro e
      simp only [hm, Except.ok.injEq, h, not_false_eq_true, true_and]
      exact eq_comm

/-- Claim C9.  ISV round trip: for every ISV whose three fields are each at
most 65535 bytes long, `MarshalBinary` succeeds and `UnmarshalBinary` of its
output, into any ISV, succeeds and leaves Identity, Salt and Verifier equal to
those of the original. -/
theorem ISV_roundtrip (i i0 : ISV) (h1 : i.Identity.length ≤ 65535)
    (h2 : i.Salt.length ≤ 65535) (h3 : i.Verifier.length ≤ 65535) :
    ∃ e, i.MarshalBinary = .ok e ∧ i0.UnmarshalBinary e = (i, none) :=
  ⟨_, ISV_MarshalBinary_ok i h1 h2 h3, ISV_UnmarshalBinary_frames i0 _ _ _ h1 h2 h3⟩

/-- An instance of C9: the ISV (01, 02, 03) decoded into the zero ISV. -/
theorem ISV_roundtrip_witness :
    ((ISV.mk [1] [2] [3]).Identity.length ≤ 65535 ∧ (ISV.mk [1] [2] [3]).Salt.length ≤ 65535
      ∧ (ISV.mk [1] [2] [3]).Verifier.length ≤ 65535)
    ∧ ∃ e, (ISV.mk [1] [2] [3]).MarshalBinary = .ok e
        ∧ (ISV.mk [] [] []).UnmarshalBinary e = (ISV.mk [1] [2] [3], none) :=
  ⟨⟨by decide, by decide, by decide⟩,
    ISV_roundtrip ⟨[1], [2], [3]⟩ ⟨[], [], []⟩ (by decide) (by decide) (by decide)⟩


/-! ## The server encoding -/

theorem writeInt_eq_ok (w : Bytes) (x : Option Int) (e : Bytes) (h : writeInt w x = .ok e) :
    ∃ z, x = some z ∧ (Bytes.ofInt z).length ≤ 65535 ∧ e = w ++ frame (Bytes.ofInt z) := by
  cases x with
  | none => exact absurd h (by simp [writeInt, ptrBytes])
  | some z =>
    simp only [writeInt, ptrBytes] at h
    exact ⟨z, rfl, writeBytes_eq_ok _ _ _ h⟩

theorem Server_MarshalBinary_eq (s : Server) (e : Bytes) (h : s.MarshalBinary = .ok e) :
    ∃ A b B S : Int, s.xA = some A ∧ s.b = some b ∧ s.xB = some B ∧ s.xS = some S
      ∧ ((Bytes.ofInt A).length ≤ 65535 ∧ (Bytes.ofInt b).length ≤ 65535
        ∧ (Bytes.ofInt B).length ≤ 65535 ∧ (Bytes.ofInt S).length ≤ 65535
        ∧ s.salt.length ≤ 65535 ∧ s.xK.length ≤ 65535 ∧ s.m1.length ≤ 65535
        ∧ s.m2.length ≤ 65535)
      ∧ e = frame (Bytes.ofInt A) ++ frame (Bytes.ofInt b) ++ frame (Bytes.ofInt B)
          ++ frame (Bytes.ofInt S) ++ frame s.salt ++ frame s.xK ++ frame s.m1
          ++ frame s.m2 := by
  unfold Server.MarshalBinary at h
  cases h1 : writeInt [] s.xA with
  | error er => rw [h1] at h; exact absurd h (by simp)
  | ok b1 =>
  rw [h1] at h; simp only at h
  cases h2 : writeInt b1 s.b with
  | error er => rw [h2] at h; exact absurd h (by simp)
  | ok b2 =>
  rw [h2] at h; simp only at h
  cases h3 : writeInt b2 s.xB with
  | error er => rw [h3] at h; exact absurd h (by simp)
  | ok b3 =>
  rw [h3] at h; simp only at h
  cases h4 : writeInt b3 s.xS with
  | error er => rw [h4] at h; exact absurd h (by simp)
  | ok b4 =>
  rw [h4] at h; simp only at h
  cases h5 : writeBytes b4 s.salt with
  | error er => rw [h5] at h; exact absurd h (by simp)
  | ok b5 =>
  rw [h5] at h; simp only at h
  cases h6 : writeBytes b5 s.xK with
  | error er => rw [h6] at h; exact absurd h (by simp)
  | ok b6 =>
  rw [h6] at h; simp only at h
  cases h7 : writeBytes b6 s.m1 with
  | error er => rw [h7] at h; exact absurd h (by simp)
  | ok b7 =>
  rw [h7] at h; simp only at h
  cases h8 : writeBytes b7 s.m2 with
  | error er => rw [h8] at h; exact absurd h (by simp)
  | ok b8 =>
  rw [h8] at h; simp only [Except.ok.injEq] at h
  obtain ⟨A, hA, lA, eA⟩ := writeInt_eq_ok _ _ _ h1
  obtain ⟨b, hb, lb, eb⟩ := writeInt_eq_ok _ _ _ h2
  obtain ⟨B, hB, lB, eB⟩ := writeInt_eq_ok _ _ _ h3
  obtain ⟨S, hS, lS, eS⟩ := writeInt_eq_ok _ _ _ h4
  obtain ⟨l5, e5⟩ := writeBytes_eq_ok _ _ _ h5
  obtain ⟨l6, e6⟩ := writeBytes_eq_ok _ _ _ h6
  obtain ⟨l7, e7⟩ := writeBytes_eq_ok _ _ _ h7
  obtain ⟨l8, e8⟩ := writeBytes_eq_ok _ _ _ h8
  refine ⟨A, b, B, S, hA, hb, hB, hS, ⟨lA, lb, lB, lS, l5, l6, l7, l8⟩, ?_⟩
  rw [← h, e8, e7, e6, e5, eS, eB, eb, eA, List.nil_append]

theorem Server_UnmarshalBinary_frames (s0 : Server) (a b c d salt xK m1 m2 : Bytes)
    (ha : a.length ≤ 65535) (hb : b.length ≤ 65535) (hc : c.length ≤ 65535)
    (hd : d.length ≤ 65535) (h5 : salt.length ≤ 65535) (h6 : xK.length ≤ 65535)
    (h7 : m1.length ≤ 65535) (h8 : m2.length ≤ 65535) :
    s0.UnmarshalBinary (frame a ++ frame b ++ frame c ++ frame d ++ frame salt ++ frame xK
        ++ frame m1 ++ frame m2)
      = (⟨some (SetBytes a : Int), some (SetBytes b : Int), some (SetBytes c : Int),
          some (SetBytes d : Int), salt, xK, m1, m2⟩, none) := by
  simp [Server.UnmarshalBinary, readBytes_frame _ _ ha, readBytes_frame _ _ hb,
    readBytes_frame _ _ hc, readBytes_frame _ _ hd, readBytes_frame _ _ h5,
    readBytes_frame _ _ h6, readBytes_frame _ _ h7, readBytes_frame_nil _ h8, copyOne]

theorem nonNeg_some (z : Int) (h : nonNeg (some z) = true) : 0 ≤ z := by
  simpa [nonNeg] using h

/-- Claim C6.  Server serialization round trip: for every server whose
`A`, `b`, `B`, `S` are non-negative and for which `MarshalBinary` succeeds
with output `e`, `UnmarshalBinary e` on any server (a fresh one included)
succeeds and yields a server whose eight fields equal those of the
original. -/
theorem Server_roundtrip (s s0 : Server) (e : Bytes)
    (hA : nonNeg s.xA = true) (hb : nonNeg s.b = true) (hB : nonNeg s.xB = true)
    (hS : nonNeg s.xS = true) (h : s.MarshalBinary = .ok e) :
    s0.UnmarshalBinary e = (s, none) := by
  obtain ⟨A, b, B, S, eA, eb, eB, eS, ⟨lA, lb, lB, lS, l5, l6, l7, l8⟩, he⟩ :=
    Server_MarshalBinary_eq s e h
  rw [eA] at hA; rw [eb] at hb; rw [eB] at hB; rw [eS] at hS
  rw [he, Server_UnmarshalBinary_frames s0 _ _ _ _ _ _ _ _ lA lb lB lS l5 l6 l7 l8,
    SetBytes_ofInt_nonneg A (nonNeg_some A hA), SetBytes_ofInt_nonneg b (nonNeg_some b hb),
    SetBytes_ofInt_nonneg B (nonNeg_some B hB), SetBytes_ofInt_nonneg S (nonNeg_some S hS),
    ← eA, ← eb, ← eB, ← eS]


/-- An instance of C6: the example server, decoded into `new(Server)`. -/
theorem Server_roundtrip_witness :
    (nonNeg exampleServer.xA = true ∧ nonNeg exampleServer.b = true
      ∧ nonNeg exampleServer.xB = true ∧ nonNeg exampleServer.xS = true
      ∧ exampleServer.MarshalBinary = .ok exampleServerBytes)
    ∧ Server.zero.UnmarshalBinary exampleServerBytes = (exampleServer, none) :=
  ⟨⟨by decide, by decide, by decide, by decide, by decide⟩,
    Server_roundtrip exampleServer Server.zero exampleServerBytes (by decide) (by decide)
      (by decide) (by decide) (by decide)⟩

theorem natBytes_eq_nil (fuel n : Nat) (h : n ≤ fuel) : natBytes fuel n = [] ↔ n = 0 := by
  cases fuel with
  | zero =>
    have h0 : n = 0 := by omega
    simp [natBytes, h0]
  | succ f =>
    unfold natBytes
    split
    · rename_i h0; simp [h0]
    · rename_i h0; simp [h0]

theorem natBytes_head (fuel n : Nat) (h : n ≤ fuel) : (natBytes fuel n).head? ≠ some 0 := by
  induction fuel generalizing n with
  | zero => simp [natBytes]
  | succ f ih =>
    unfold natBytes
    split
    · simp
    · rename_i h0
      have hle : n / 256 ≤ f := by omega
      by_cases hnil : natBytes f (n / 256) = []
      · have hq : n / 256 = 0 := (natBytes_eq_nil f _ hle).mp hnil
        rw [hnil]
        simp only [List.nil_append, List.head?_cons, ne_eq, Option.some.injEq]
        intro hz
        have hv := congrArg Fin.val hz
        simp only [Fin.val_zero] at hv
        omega
      · rw [List.head?_append_of_ne_nil _ hnil]
        exact ih _ hle

theorem ofInt_isMinimalBE (x : Int) : IsMinimalBE x.natAbs (Bytes.ofInt x) :=
  ⟨SetBytes_ofInt x, natBytes_head _ _ (Nat.le_refl _)⟩

/-- Claim C7.  Server wire layout: whenever `MarshalBinary` succeeds, the
four integer fields are set and the output is exactly the concatenation, in
this order, of the frames of `A`, `b`, `B`, `S` (each as its minimal
big-endian unsigned byte string: it reads as the absolute value and has no
leading zero byte), `salt`, `K`, `M1`, `M2`, the frame of a byte string being
its 2-byte big-endian length followed by its bytes. -/
theorem Server_MarshalBinary_layout (s : Server) (e : Bytes) (h : s.MarshalBinary = .ok e) :
    ∃ A b B S : Int, s.xA = some A ∧ s.b = some b ∧ s.xB = some B ∧ s.xS = some S
      ∧ (IsMinimalBE A.natAbs (Bytes.ofInt A) ∧ IsMinimalBE b.natAbs (Bytes.ofInt b)
        ∧ IsMinimalBE B.natAbs (Bytes.ofInt B) ∧ IsMinimalBE S.natAbs (Bytes.ofInt S))
      ∧ e = frame (Bytes.ofInt A) ++ frame (Bytes.ofInt b) ++ frame (Bytes.ofInt B)
          ++ frame (Bytes.ofInt S) ++ frame s.salt ++ frame s.xK ++ frame s.m1
          ++ frame s.m2 := by
  obtain ⟨A, b, B, S, eA, eb, eB, eS, _, he⟩ := Server_MarshalBinary_eq s e h
  exact ⟨A, b, B, S, eA, eb, eB, eS,
    ⟨ofInt_isMinimalBE A, ofInt_isMinimalBE b, ofInt_isMinimalBE B, ofInt_isMinimalBE S⟩, he⟩

/-- An instance of C7: the example server. -/
theorem Server_MarshalBinary_layout_witness :
    exampleServer.MarshalBinary = .ok exampleServerBytes
    ∧ ∃ A b B S : Int, exampleServer.xA = some A ∧ exampleServer.b = some b
      ∧ exampleServer.xB = some B ∧ exampleServer.xS = some S
      ∧ (IsMinimalBE A.natAbs (Bytes.ofInt A) ∧ IsMinimalBE b.natAbs (Bytes.ofInt b)
        ∧ IsMinimalBE B.natAbs (Bytes.ofInt B) ∧ IsMinimalBE S.natAbs (Bytes.ofInt S))
      ∧ exampleServerBytes = frame (Bytes.ofInt A) ++ frame (Bytes.ofInt b)
          ++ frame (Bytes.ofInt B) ++ frame (Bytes.ofInt S) ++ frame exampleServer.salt
          ++ frame exampleServer.xK ++ frame exampleServer.m1 ++ frame exampleServer.m2 :=
  ⟨by decide, Server_MarshalBinary_layout exampleServer exampleServerBytes (by decide)⟩

/-! ## Trailing bytes -/

theorem ISV_trailing (i0 : ISV) (e t : Bytes) (ht : t ≠ [])
    (h : (i0.UnmarshalBinary e).2 = none) :
    (i0.UnmarshalBinary (e ++ t)).2 = some .trailingBytes := by
  unfold ISV.UnmarshalBinary at h ⊢
  cases h1 : readBytes e with
  | error er => rw [h1] at h; exact absurd h (by simp)
  | ok p1 =>
  obtain ⟨f1, r1⟩ := p1
  rw [h1] at h; rw [readBytes_append_right e t f1 r1 h1]
  simp only at h ⊢
  cases h2 : readBytes r1 with
  | error er => rw [h2] at h; exact absurd h (by simp)
  | ok p2 =>
  obtain ⟨f2, r2⟩ := p2
  rw [h2] at h; rw [readBytes_append_right r1 t f2 r2 h2]
  simp only at h ⊢
  cases h3 : readBytes r2 with
  | error er => rw [h3] at h; exact absurd h (by simp)
  | ok p3 =>
  obtain ⟨f3, r3⟩ := p3
  rw [h3] at h; rw [readBytes_append_right r2 t f3 r3 h3]
  simp only at h ⊢
  have hne : r3 ++ t ≠ [] := by simp [ht]
  simp [copyOne, hne]

theorem Server_trailing (s0 : Server) (e t : Bytes) (ht : t ≠ [])
    (h : (s0.UnmarshalBinary e).2 = none) :
    (s0.UnmarshalBinary (e ++ t)).2 = some .trailingBytes := by
  unfold Server.UnmarshalBinary at h ⊢
  cases h1 : readBytes e with
  | error er => rw [h1] at h; exact absurd h (by simp)
  | ok p1 =>
  obtain ⟨f1, r1⟩ := p1
  rw [h1] at h; rw [readBytes_append_right e t f1 r1 h1]
  simp only at h ⊢
  cases h2 : readBytes r1 with
  | error er => rw [h2] at h; exact absurd h (by simp)
  | ok p2 =>
  obtain ⟨f2, r2⟩ := p2
  rw [h2] at h; rw [readBytes_append_right r1 t f2 r2 h2]
  simp only at h ⊢
  cases h3 : readBytes r2 with
  | error er => rw [h3] at h; exact absurd h (by simp)
  | ok p3 =>
  obtain ⟨f3, r3⟩ := p3
  rw [h3] at h; rw [readBytes_append_right r2 t f3 r3 h3]
  simp only at h ⊢
  cases h4 : readBytes r3 with
  | error er => rw [h4] at h; exact absurd h (by simp)
  | ok p4 =>
  obtain ⟨f4, r4⟩ := p4
  rw [h4] at h; rw [readBytes_append_right r3 t f4 r4 h4]
  simp only at h ⊢
  cases h5 : readBytes r4 with
  | error er => rw [h5] at h; exact absurd h (by simp)
  | ok p5 =>
  obtain ⟨f5, r5⟩ := p5
  rw [h5] at h; rw [readBytes_append_right r4 t f5 r5 h5]
  simp only at h ⊢
  cases h6 : readBytes r5 with
  | error er => rw [h6] at h; exact absurd h (by simp)
  | ok p6 =>
  obtain ⟨f6, r6⟩ := p6
  rw [h6] at h; rw [readBytes_append_right r5 t f6 r6 h6]
  simp only at h ⊢
  cases h7 : readBytes r6 with
  | error er => rw [h7] at h; exact absurd h (by simp)
  | ok p7 =>
  obtain ⟨f7, r7⟩ := p7
  rw [h7] at h; rw [readBytes_append_right r6 t f7 r7 h7]
  simp only at h ⊢
  cases h8 : readBytes r7 with
  | error er => rw [h8] at h; exact absurd h (by simp)
  | ok p8 =>
  obtain ⟨f8, r8⟩ := p8
  rw [h8] at h; rw [readBytes_append_right r7 t f8 r8 h8]
  simp only at h ⊢
  have hne : r8 ++ t ≠ [] := by simp [ht]
  simp [copyOne, hne]

/-- Claim C10.  Trailing data is rejected by both decoders: for every byte
string `eI` that `ISV.UnmarshalBinary` accepts, every byte string `eS` that
`Server.UnmarshalBinary` accepts (the outputs of the two `MarshalBinary`
among them), and every non-empty `t`, decoding `eI ++ t`, respectively
`eS ++ t`, returns `ErrTrailingBytes`. -/
theorem trailing_bytes_rejected (i0 : ISV) (s0 : Server) (eI eS t : Bytes) (ht : t ≠ [])
    (hI : (i0.UnmarshalBinary eI).2 = none) (hS : (s0.UnmarshalBinary eS).2 = none) :
    (i0.UnmarshalBinary (eI ++ t)).2 = some .trailingBytes
    ∧ (s0.UnmarshalBinary (eS ++ t)).2 = some .trailingBytes :=
  ⟨ISV_trailing i0 eI t ht hI, Server_trailing s0 eS t ht hS⟩

/-- An instance of C10: the encodings of the ISV (01, 02, 03) and of the
example server, each followed by one zero byte. -/
theorem trailing_bytes_rejected_witness :
    (([0] : Bytes) ≠ []
      ∧ (ISV.UnmarshalBinary ⟨[], [], []⟩ [0, 1, 1, 0, 1, 2, 0, 1, 3]).2 = none
      ∧ (Server.zero.UnmarshalBinary exampleServerBytes).2 = none)
    ∧ ((ISV.UnmarshalBinary ⟨[], [], []⟩ ([0, 1, 1, 0, 1, 2, 0, 1, 3] ++ [0])).2
          = some .trailingBytes
      ∧ (Server.zero.UnmarshalBinary (exampleServerBytes ++ [0])).2 = some .trailingBytes) :=
  ⟨⟨by decide, by decide, by decide⟩,
    trailing_bytes_rejected ⟨[], [], []⟩ Server.zero [0, 1, 1, 0, 1, 2, 0, 1, 3]
      exampleServerBytes [0] (by decide) (by decide) (by decide)⟩

/-! ## Truncated input -/

theorem readFull_split (p t : Bytes) (n : Nat) (b r1 : Bytes)
    (h : readFull (p ++ t) n = .ok (b, r1)) :
    (readFull p n = .error .eof ∨ readFull p n = .error .unexpectedEOF)
    ∨ ∃ r, readFull p n = .ok (b, r) ∧ r1 = r ++ t := by
  by_cases hn : n ≤ p.length
  · right
    have h1 : readFull p n = .ok (p.take n, p.drop n) := by simp [readFull, hn]
    have h2 := readFull_append_right p t n _ _ h1
    rw [h2] at h
    simp only [Except.ok.injEq, Prod.mk.injEq] at h
    exact ⟨p.drop n, by rw [h1, h.1], h.2.symm⟩
  · left
    unfold readFull
    by_cases h0 : p.length = 0
    · left; rw [if_neg hn, if_pos h0]
    · right; rw [if_neg hn, if_neg h0]

theorem readBytes_split (p t b r1 : Bytes) (h : readBytes (p ++ t) = .ok (b, r1)) :
    (readBytes p = .error .eof ∨ readBytes p = .error .unexpectedEOF)
    ∨ ∃ r, readBytes p = .ok (b, r) ∧ r1 = r ++ t := by
  unfold readBytes at h
  cases h2 : readFull (p ++ t) 2 with
  | error e => rw [h2] at h; exact absurd h (by simp)
  | ok q =>
    obtain ⟨l, r2⟩ := q
    rw [h2] at h
    simp only at h
    cases h3 : readFull r2 (SetBytes l) with
    | error e => rw [h3] at h; exact absurd h (by simp)
    | ok q3 =>
      obtain ⟨b3, r3⟩ := q3
      rw [h3] at h
      simp only [Except.ok.injEq, Prod.mk.injEq] at h
      obtain ⟨hb, hr⟩ := h
      subst hb; subst hr
      rcases readFull_split p t 2 l r2 h2 with h4 | ⟨r, h4, h5⟩
      · left
        rcases h4 with h4 | h4
        · left; simp [readBytes, h4]
        · right; simp [readBytes, h4]
      · subst h5
        rcases readFull_split r t _ _ _ h3 with h6 | ⟨r', h6, h7⟩
        · left
          rcases h6 with h6 | h6
          · left; simp [readBytes, h4, h6]
          · right; simp [readBytes, h4, h6]
        · right
          exact ⟨r', by simp [readBytes, h4, h6], h7⟩

theorem ISV_truncated (i0 : ISV) (p t : Bytes) (ht : t ≠ [])
    (h : (i0.UnmarshalBinary (p ++ t)).2 = none) :
    (i0.UnmarshalBinary p).2 = some .eof ∨ (i0.UnmarshalBinary p).2 = some .unexpectedEOF := by
  unfold ISV.UnmarshalBinary at h ⊢
  cases h1 : readBytes (p ++ t) with
  | error er => rw [h1] at h; exact absurd h (by simp)
  | ok q1 =>
  obtain ⟨f1, r1⟩ := q1
  rw [h1] at h; simp only at h
  rcases readBytes_split p t f1 r1 h1 with h1' | ⟨p1, h1', e1⟩
  · rcases h1' with h1' | h1' <;> simp [h1']
  subst e1; rw [h1']; simp only
  cases h2 : readBytes (p1 ++ t) with
  | error er => rw [h2] at h; exact absurd h (by simp)
  | ok q2 =>
  obtain ⟨f2, r2⟩ := q2
  rw [h2] at h; simp only at h
  rcases readBytes_split p1 t f2 r2 h2 with h2' | ⟨p2, h2', e2⟩
  · rcases h2' with h2' | h2' <;> simp [h2']
  subst e2; rw [h2']; simp only
  cases h3 : readBytes (p2 ++ t) with
  | error er => rw [h3] at h; exact absurd h (by simp)
  | ok q3 =>
  obtain ⟨f3, r3⟩ := q3
  rw [h3] at h; simp only at h
  rcases readBytes_split p2 t f3 r3 h3 with h3' | ⟨p3, h3', e3⟩
  · rcases h3' with h3' | h3' <;> simp [h3']
  subst e3
  have hne : p3 ++ t ≠ [] := by simp [ht]
  simp [copyOne, hne] at h

theorem Server_truncated (s0 : Server) (p t : Bytes) (ht : t ≠ [])
    (h : (s0.UnmarshalBinary (p ++ t)).2 = none) :
    (s0.UnmarshalBinary p).2 = some .eof ∨ (s0.UnmarshalBinary p).2 = some .unexpectedEOF := by
  unfold Server.UnmarshalBinary at h ⊢
  cases h1 : readBytes (p ++ t) with
  | error er => rw [h1] at h; exact absurd h (by simp)
  | ok q1 =>
  obtain ⟨f1, r1⟩ := q1
  rw [h1] at h; simp only at h
  rcases readBytes_split p t f1 r1 h1 with g1 | ⟨p1, g1, e1⟩
  · rcases g1 with g1 | g1 <;> simp [g1]
  subst e1; rw [g1]; simp only
  cases h2 : readBytes (p1 ++ t) with
  | error er => rw [h2] at h; exact absurd h (by simp)
  | ok q2 =>
  obtain ⟨f2, r2⟩ := q2
  rw [h2] at h; simp only at h
  rcases readBytes_split p1 t f2 r2 h2 with g2 | ⟨p2, g2, e2⟩
  · rcases g2 with g2 | g2 <;> simp [g2]
  subst e2; rw [g2]; simp only
  cases h3 : readBytes (p2 ++ t) with
  | error er => rw [h3] at h; exact absurd h (by simp)
  | ok q3 =>
  obtain ⟨f3, r3⟩ := q3
  rw [h3] at h; simp only at h
  rcases readBytes_split p2 t f3 r3 h3 with g3 | ⟨p3, g3, e3⟩
  · rcases g3 with g3 | g3 <;> simp [g3]
  subst e3; rw [g3]; simp only
  cases h4 : readBytes (p3 ++ t) with
  | error er => rw [h4] at h; exact absurd h (by simp)
  | ok q4 =>
  obtain ⟨f4, r4⟩ := q4
  rw [h4] at h; simp only at h
  rcases readBytes_split p3 t f4 r4 h4 with g4 | ⟨p4, g4, e4⟩
  · rcases g4 with g4 | g4 <;> simp [g4]
  subst e4; rw [g4]; simp only
  cases h5 : readBytes (p4 ++ t) with
  | error er => rw [h5] at h; exact absurd h (by simp)
  | ok q5 =>
  obtain ⟨f5, r5⟩ := q5
  rw [h5] at h; simp only at h
  rcases readBytes_split p4 t f5 r5 h5 with g5 | ⟨p5, g5, e5⟩
  · rcases g5 with g5 | g5 <;> simp [g5]
  subst e5; rw [g5]; simp only
  cases h6 : readBytes (p5 ++ t) with
  | error er => rw [h6] at h; exact absurd h (by simp)
  | ok q6 =>
  obtain ⟨f6, r6⟩ := q6
  rw [h6] at h; simp only at h
  rcases readBytes_split p5 t f6 r6 h6 with g6 | ⟨p6, g6, e6⟩
  · rcases g6 with g6 | g6 <;> simp [g6]
  subst e6; rw [g6]; simp only
  cases h7 : readBytes (p6 ++ t) with
  | error er => rw [h7] at h; exact absurd h (by simp)
  | ok q7 =>
  obtain ⟨f7, r7⟩ := q7
  rw [h7] at h; simp only at h
  rcases readBytes_split p6 t f7 r7 h7 with g7 | ⟨p7, g7, e7⟩
  · rcases g7 with g7 | g7 <;> simp [g7]
  subst e7; rw [g7]; simp only
  cases h8 : readBytes (p7 ++ t) with
  | error er => rw [h8] at h; exact absurd h (by simp)
  | ok q8 =>
  obtain ⟨f8, r8⟩ := q8
  rw [h8] at h; simp only at h
  rcases readBytes_split p7 t f8 r8 h8 with g8 | ⟨p8, g8, e8⟩
  · rcases g8 with g8 | g8 <;> simp [g8]
  subst e8; rw [g8]; simp only
  have hne : p8 ++ t ≠ [] := by simp [ht]
  simp [copyOne, hne] at h

/-- Claim C11 (amended).  Truncated input is rejected with an end-of-input
error: for every byte string `eI` that `ISV.UnmarshalBinary` accepts, every
`eS` that `Server.UnmarshalBinary` accepts, and every strict prefix of either
(the empty input and cuts between a length and its body included),
`UnmarshalBinary` of the prefix fails, and the error is `io.EOF` or
`io.ErrUnexpectedEOF`; it is never success and never `ErrTrailingBytes`. -/
theorem truncated_input_rejected (i0 : ISV) (s0 : Server) (eI eS : Bytes) (nI nS : Nat)
    (hnI : nI < eI.length) (hnS : nS < eS.length)
    (hI : (i0.UnmarshalBinary eI).2 = none) (hS : (s0.UnmarshalBinary eS).2 = none) :
    ((i0.UnmarshalBinary (eI.take nI)).2 = some .eof
      ∨ (i0.UnmarshalBinary (eI.take nI)).2 = some .unexpectedEOF)
    ∧ ((s0.UnmarshalBinary (eS.take nS)).2 = some .eof
      ∨ (s0.UnmarshalBinary (eS.take nS)).2 = some .unexpectedEOF) := by
  have dI : eI.drop nI ≠ [] := by
    intro h0
    have := congrArg List.length h0
    simp at this; omega
  have dS : eS.drop nS ≠ [] := by
    intro h0
    have := congrArg List.length h0
    simp at this; omega
  rw [← List.take_append_drop nI eI] at hI
  rw [← List.take_append_drop nS eS] at hS
  exact ⟨ISV_truncated i0 _ _ dI hI, Server_truncated s0 _ _ dS hS⟩

/-- An instance of C11: the ISV encoding cut after 4 bytes and the example
server encoding cut after 23 bytes. -/
theorem truncated_input_rejected_witness :
    ((4 < exampleISVBytes.length ∧ 23 < exampleServerBytes.length
      ∧ (ISV.UnmarshalBinary ⟨[], [], []⟩ exampleISVBytes).2 = none
      ∧ (Server.zero.UnmarshalBinary exampleServerBytes).2 = none))
    ∧ (((ISV.UnmarshalBinary ⟨[], [], []⟩ (exampleISVBytes.take 4)).2
          = some .eof
        ∨ (ISV.UnmarshalBinary ⟨[], [], []⟩ (exampleISVBytes.take 4)).2
          = some .unexpectedEOF)
      ∧ ((Server.zero.UnmarshalBinary (exampleServerBytes.take 23)).2 = some .eof
        ∨ (Server.zero.UnmarshalBinary (exampleServerBytes.take 23)).2
          = some .unexpectedEOF)) :=
  ⟨⟨by decide, by decide, by decide, by decide⟩,
    truncated_input_rejected ⟨[], [], []⟩ Server.zero exampleISVBytes
      exampleServerBytes 4 23 (by decide) (by decide) (by decide) (by decide)⟩

/-- Claim C11 as stated fails: the ISV encoding 00 01 01 00 01 02 00 01 03 cut
after 2 bytes, and the example server encoding cut to the empty input, fail
with `io.EOF`, not with `io.ErrUnexpectedEOF`. -/
theorem truncated_input_not_always_unexpectedEOF :
    (ISV.UnmarshalBinary ⟨[], [], []⟩ exampleISVBytes).2 = none
    ∧ (2 < exampleISVBytes.length
      ∧ (ISV.UnmarshalBinary ⟨[], [], []⟩ (exampleISVBytes.take 2)).2
          = some .eof
      ∧ (ISV.UnmarshalBinary ⟨[], [], []⟩ (exampleISVBytes.take 2)).2
          ≠ some .unexpectedEOF)
    ∧ (Server.zero.UnmarshalBinary exampleServerBytes).2 = none
    ∧ ((Server.zero.UnmarshalBinary (exampleServerBytes.take 0)).2 = some .eof
      ∧ (Server.zero.UnmarshalBinary (exampleServerBytes.take 0)).2 ≠ some .unexpectedEOF) := by
  decide

/-! ## The error of a truncated ISV by cut position -/

theorem readFull_eq_ok (r : Bytes) (n : Nat) (b r1 : Bytes) (h : readFull r n = .ok (b, r1)) :
    r = b ++ r1 ∧ b.length = n := by
  unfold readFull at h
  by_cases hn : n ≤ r.length
  · rw [if_pos hn] at h
    simp only [Except.ok.injEq, Prod.mk.injEq] at h
    obtain ⟨h1, h2⟩ := h
    subst h1; subst h2
    exact ⟨(List.take_append_drop n r).symm, by simp; omega⟩
  · rw [if_neg hn] at h
    split at h <;> exact absurd h (by simp)

theorem SetBytes_pair (hi lo : Byte) : SetBytes [hi, lo] = hi.val * 256 + lo.val := by
  simp [SetBytes]

theorem frame_of_header (hi lo : Byte) (b : Bytes) (h : b.length = hi.val * 256 + lo.val) :
    frame b = hi :: lo :: b := by
  have h1 := hi.isLt
  have h2 := lo.isLt
  have e1 : (⟨b.length / 256 % 256, Nat.mod_lt _ (by decide)⟩ : Byte) = hi := by
    apply Fin.ext; show b.length / 256 % 256 = hi.val; omega
  have e2 : (⟨b.length % 256, Nat.mod_lt _ (by decide)⟩ : Byte) = lo := by
    apply Fin.ext; show b.length % 256 = lo.val; omega
  simp only [frame, e1, e2, List.cons_append, List.nil_append]

theorem readBytes_eq_ok (r b r1 : Bytes) (h : readBytes r = .ok (b, r1)) :
    b.length ≤ 65535 ∧ r = frame b ++ r1 := by
  unfold readBytes at h
  cases h2 : readFull r 2 with
  | error e => rw [h2] at h; exact absurd h (by simp)
  | ok q =>
    obtain ⟨l, r2⟩ := q
    rw [h2] at h
    simp only at h
    cases h3 : readFull r2 (SetBytes l) with
    | error e => rw [h3] at h; exact absurd h (by simp)
    | ok q3 =>
      obtain ⟨b3, r3⟩ := q3
      rw [h3] at h
      simp only [Except.ok.injEq, Prod.mk.injEq] at h
      obtain ⟨hb, hr⟩ := h
      subst hb; subst hr
      obtain ⟨e2, l2⟩ := readFull_eq_ok _ _ _ _ h2
      obtain ⟨e3, l3⟩ := readFull_eq_ok _ _ _ _ h3
      match l, l2 with
      | [hi, lo], _ =>
        rw [SetBytes_pair] at l3
        have h1 := hi.isLt
        have h2 := lo.isLt
        refine ⟨by omega, ?_⟩
        rw [frame_of_header hi lo b3 l3, e2, e3]
        simp

theorem readBytes_take_frame (b rest : Bytes) (hb : b.length ≤ 65535) (n : Nat) :
    readBytes ((frame b ++ rest).take n)
      = if n = 0 then .error .eof
        else if n = 1 then .error .unexpectedEOF
        else if n < 2 + b.length then (if n = 2 then .error .eof else .error .unexpectedEOF)
        else .ok (b, rest.take (n - (2 + b.length))) := by
  have hl : SetBytes [(⟨b.length / 256 % 256, Nat.mod_lt _ (by decide)⟩ : Byte),
      ⟨b.length % 256, Nat.mod_lt _ (by decide)⟩] = b.length := by
    simp only [SetBytes, List.foldl_cons, List.foldl_nil]
    omega
  match n with
  | 0 => simp [readBytes, readFull]
  | 1 => simp [readBytes, readFull, frame]
  | m + 2 =>
    have h2 : readFull ((frame b ++ rest).take (m + 2)) 2
        = .ok ([⟨b.length / 256 % 256, Nat.mod_lt _ (by decide)⟩,
                ⟨b.length % 256, Nat.mod_lt _ (by decide)⟩], (b ++ rest).take m) := by
      simp [readFull, frame]
    simp only [readBytes, h2, hl]
    by_cases hm : b.length ≤ m
    · have h3 : (b ++ rest).take m = b ++ rest.take (m - b.length) := by
        rw [List.take_append_eq_append_take, List.take_of_length_le hm]
      have c1 : ¬ (m + 2 < 2 + b.length) := by omega
      have c2 : m + 2 - (2 + b.length) = m - b.length := by omega
      simp only [h3, readFull_append, c1, c2, if_false, Nat.add_eq_zero, OfNat.ofNat_ne_zero,
        and_false, Nat.add_eq_right]
      simp
    · have hm' : m < b.length := Nat.lt_of_not_le hm
      have h3 : (b ++ rest).take m = b.take m := by
        rw [List.take_append_of_le_length (Nat.le_of_lt hm')]
      have h4 : (b.take m).length = m := by simp; omega
      have c1 : m + 2 < 2 + b.length := by omega
      have c3 : ¬ (b.length ≤ (b.take m).length) := by rw [h4]; omega
      rw [h3]
      unfold readFull
      rw [if_neg c3, h4]
      by_cases h0 : m = 0
      · subst h0
        simp only [if_true, Nat.zero_add, OfNat.ofNat_ne_zero, OfNat.ofNat_ne_one, if_false, c1]
      · have c4 : ¬ (m + 2 = 2) := by omega
        have c5 : ¬ (m + 2 = 0) := by omega
        have c6 : ¬ (m + 2 = 1) := by omega
        simp only [h0, c1, c4, c5, c6, if_true, if_false]

theorem ISV_UnmarshalBinary_eq_ok (i0 : ISV) (e a b c : Bytes)
    (h : i0.UnmarshalBinary e = (⟨a, b, c⟩, none)) :
    (a.length ≤ 65535 ∧ b.length ≤ 65535 ∧ c.length ≤ 65535)
    ∧ e = frame a ++ (frame b ++ (frame c ++ [])) := by
  unfold ISV.UnmarshalBinary at h
  cases h1 : readBytes e with
  | error er => rw [h1] at h; simp at h
  | ok q1 =>
  obtain ⟨f1, r1⟩ := q1
  rw [h1] at h; simp only at h
  cases h2 : readBytes r1 with
  | error er => rw [h2] at h; simp at h
  | ok q2 =>
  obtain ⟨f2, r2⟩ := q2
  rw [h2] at h; simp only at h
  cases h3 : readBytes r2 with
  | error er => rw [h3] at h; simp at h
  | ok q3 =>
  obtain ⟨f3, r3⟩ := q3
  rw [h3] at h; simp only at h
  by_cases h4 : r3 = []
  · subst h4
    simp [copyOne] at h
    obtain ⟨ha, hb, hc⟩ := h
    subst ha; subst hb; subst hc
    obtain ⟨l1, e1⟩ := readBytes_eq_ok _ _ _ h1
    obtain ⟨l2, e2⟩ := readBytes_eq_ok _ _ _ h2
    obtain ⟨l3, e3⟩ := readBytes_eq_ok _ _ _ h3
    exact ⟨⟨l1, l2, l3⟩, by rw [e1, e2, e3]⟩
  · simp [copyOne, h4] at h

theorem readBytes_take_short (b rest : Bytes) (hb : b.length ≤ 65535) (n : Nat)
    (hn : n < 2 + b.length) :
    readBytes ((frame b ++ rest).take n)
      = .error (if n = 0 ∨ n = 2 then .eof else .unexpectedEOF) := by
  rw [readBytes_take_frame b rest hb n]
  by_cases h0 : n = 0
  · rw [if_pos h0, if_pos (Or.inl h0)]
  · by_cases h1 : n = 1
    · have c : ¬ (n = 0 ∨ n = 2) := by omega
      rw [if_neg h0, if_pos h1, if_neg c]
    · by_cases h2 : n = 2
      · rw [if_neg h0, if_neg h1, if_pos hn, if_pos h2, if_pos (Or.inr h2)]
      · have c : ¬ (n = 0 ∨ n = 2) := by omega
        rw [if_neg h0, if_neg h1, if_pos hn, if_neg h2, if_neg c]

theorem readBytes_take_long (b rest : Bytes) (hb : b.length ≤ 65535) (n : Nat)
    (hn : ¬ n < 2 + b.length) :
    readBytes ((frame b ++ rest).take n) = .ok (b, rest.take (n - (2 + b.length))) := by
  have h0 : ¬ n = 0 := by omega
  have h1 : ¬ n = 1 := by omega
  rw [readBytes_take_frame b rest hb n, if_neg h0, if_neg h1, if_neg hn]

theorem ISV_take_error (i0 : ISV) (a b c : Bytes) (ha : a.length ≤ 65535)
    (hb : b.length ≤ 65535) (hc : c.length ≤ 65535) (n : Nat)
    (hn : n < 6 + a.length + b.length + c.length) :
    (i0.UnmarshalBinary ((frame a ++ (frame b ++ (frame c ++ []))).take n)).2
      = if n < 2 + a.length then (if n = 0 ∨ n = 2 then some .eof else some .unexpectedEOF)
        else if n < 4 + a.length + b.length then
          (if n = 2 + a.length ∨ n = 4 + a.length then some .eof else some .unexpectedEOF)
        else (if n = 4 + a.length + b.length ∨ n = 6 + a.length + b.length then some .eof
          else some .unexpectedEOF) := by
  unfold ISV.UnmarshalBinary
  by_cases h1 : n < 2 + a.length
  · rw [readBytes_take_short a _ ha n h1, if_pos h1]
    simp only
    split_ifs <;> rfl
  · rw [readBytes_take_long a _ ha n h1, if_neg h1]
    simp only
    by_cases h2 : n < 4 + a.length + b.length
    · have h2' : n - (2 + a.length) < 2 + b.length := by omega
      have e : (n - (2 + a.length) = 0 ∨ n - (2 + a.length) = 2)
          ↔ (n = 2 + a.length ∨ n = 4 + a.length) := by omega
      rw [readBytes_take_short b _ hb _ h2', if_pos h2]
      simp only [e]
      split_ifs <;> rfl
    · have h2' : ¬ (n - (2 + a.length) < 2 + b.length) := by omega
      rw [readBytes_take_long b _ hb _ h2', if_neg h2]
      simp only
      have h3 : n - (2 + a.length) - (2 + b.length) < 2 + c.length := by omega
      have e : (n - (2 + a.length) - (2 + b.length) = 0
            ∨ n - (2 + a.length) - (2 + b.length) = 2)
          ↔ (n = 4 + a.length + b.length ∨ n = 6 + a.length + b.length) := by omega
      rw [readBytes_take_short c _ hc _ h3]
      simp only [e]
      split_ifs <;> rfl

theorem length_frame (b : Bytes) : (frame b).length = 2 + b.length := by
  simp [frame]; omega

theorem ISV_cut_iff (i0 : ISV) (e a b c : Bytes) (n : Nat)
    (h : i0.UnmarshalBinary e = (⟨a, b, c⟩, none)) (hn : n < e.length) :
    ((i0.UnmarshalBinary (e.take n)).2 = some .unexpectedEOF ↔ cutInside a b c n)
    ∧ ((i0.UnmarshalBinary (e.take n)).2 = some .eof ↔ cutAtBoundary a b c n) := by
  obtain ⟨⟨la, lb, lc⟩, he⟩ := ISV_UnmarshalBinary_eq_ok i0 e a b c h
  subst he
  have hn' : n < 6 + a.length + b.length + c.length := by
    simp only [List.length_append, length_frame, List.length_nil] at hn
    omega
  rw [ISV_take_error i0 a b c la lb lc n hn']
  have na : a ≠ [] ↔ 0 < a.length := List.length_pos.symm
  have nb : b ≠ [] ↔ 0 < b.length := List.length_pos.symm
  have nc : c ≠ [] ↔ 0 < c.length := List.length_pos.symm
  unfold cutInside cutAtBoundary
  rw [na, nb, nc]
  split_ifs <;> simp <;> omega

/-- Claim C12.  Error kind by cut position: for every byte string `e` that
`ISV.UnmarshalBinary` decodes without error into the fields `a`, `b`, `c`, and
every strict prefix of `e`, decoding the prefix fails with
`io.ErrUnexpectedEOF` exactly when the prefix ends after one byte of a 2-byte
length or after at least one but not all bytes of a field body, and with
`io.EOF` exactly when it ends where a field's length would begin or
immediately after the length of a field whose body is not empty; on
00 01 01 00 01 02 00 01 03 the prefixes of length 1, 4, 7 give
`ErrUnexpectedEOF` and those of length 2, 5, 8 give `EOF`. -/
theorem ISV_error_by_cut (i0 : ISV) (e a b c : Bytes) (n : Nat)
    (h : i0.UnmarshalBinary e = (⟨a, b, c⟩, none)) (hn : n < e.length) :
    ((i0.UnmarshalBinary (e.take n)).2 = some .unexpectedEOF ↔ cutInside a b c n)
    ∧ ((i0.UnmarshalBinary (e.take n)).2 = some .eof ↔ cutAtBoundary a b c n)
    ∧ ((ISV.UnmarshalBinary ⟨[], [], []⟩ (exampleISVBytes.take 1)).2 = some .unexpectedEOF
      ∧ (ISV.UnmarshalBinary ⟨[], [], []⟩ (exampleISVBytes.take 4)).2 = some .unexpectedEOF
      ∧ (ISV.UnmarshalBinary ⟨[], [], []⟩ (exampleISVBytes.take 7)).2 = some .unexpectedEOF
      ∧ (ISV.UnmarshalBinary ⟨[], [], []⟩ (exampleISVBytes.take 2)).2 = some .eof
      ∧ (ISV.UnmarshalBinary ⟨[], [], []⟩ (exampleISVBytes.take 5)).2 = some .eof
      ∧ (ISV.UnmarshalBinary ⟨[], [], []⟩ (exampleISVBytes.take 8)).2 = some .eof) :=
  ⟨(ISV_cut_iff i0 e a b c n h hn).1, (ISV_cut_iff i0 e a b c n h hn).2, by decide⟩

/-- An instance of C12: the encoding of (01, 02, 03) cut after 4 bytes, one
byte into the length of the second field. -/
theorem ISV_error_by_cut_witness :
    (ISV.UnmarshalBinary ⟨[], [], []⟩ exampleISVBytes = (⟨[1], [2], [3]⟩, none)
      ∧ 4 < exampleISVBytes.length)
    ∧ (((ISV.UnmarshalBinary ⟨[], [], []⟩ (exampleISVBytes.take 4)).2 = some .unexpectedEOF
        ↔ cutInside [1] [2] [3] 4)
      ∧ ((ISV.UnmarshalBinary ⟨[], [], []⟩ (exampleISVBytes.take 4)).2 = some .eof
        ↔ cutAtBoundary [1] [2] [3] 4)
      ∧ ((ISV.UnmarshalBinary ⟨[], [], []⟩ (exampleISVBytes.take 1)).2 = some .unexpectedEOF
        ∧ (ISV.UnmarshalBinary ⟨[], [], []⟩ (exampleISVBytes.take 4)).2 = some .unexpectedEOF
        ∧ (ISV.UnmarshalBinary ⟨[], [], []⟩ (exampleISVBytes.take 7)).2 = some .unexpectedEOF
        ∧ (ISV.UnmarshalBinary ⟨[], [], []⟩ (exampleISVBytes.take 2)).2 = some .eof
        ∧ (ISV.UnmarshalBinary ⟨[], [], []⟩ (exampleISVBytes.take 5)).2 = some .eof
        ∧ (ISV.UnmarshalBinary ⟨[], [], []⟩ (exampleISVBytes.take 8)).2 = some .eof)) :=
  ⟨⟨by decide, by decide⟩,
    ISV_error_by_cut ⟨[], [], []⟩ exampleISVBytes [1] [2] [3] 4 (by decide) (by decide)⟩

/-! ## The sessions before and after they are populated -/

theorem computeU_error (s : SRP) (xA xB : Int) (e : Err) (h : s.computeU xA xB = .error e) :
    e = .invalidPublicKey := by
  unfold SRP.computeU at h
  simp only at h
  split at h
  · simp only [Except.error.injEq] at h; exact h.symm
  · exact absurd h (by simp)

/-- Claim C13 (amended).  The three outcomes of `Client.Compute` in a group
with `N > 0`: when `B` is 0 modulo `N` it returns `ErrInvalidPublicKey` and
every field is as before the call; when the scrambling parameter is zero it
returns `ErrInvalidPublicKey` with the server public value and the salt
already stored, `u` nil and `S`, `M1`, `M2` as before; otherwise it returns
`M1` without error and the six fields hold the newly computed values. -/
theorem Client_Compute_outcomes (c : Client) (hN : 0 < c.s.g.N) (salt xB : Bytes) :
    (bigMod (SetBytes xB : Int) c.s.g.N = 0
      ∧ c.Compute salt xB = (c, .error .invalidPublicKey))
    ∨ (bigMod (SetBytes xB : Int) c.s.g.N ≠ 0
      ∧ c.s.computeU c.xA (SetBytes xB : Int) = .error .invalidPublicKey
      ∧ c.Compute salt xB
          = ({ c with xB := some (SetBytes xB : Int), salt := salt, u := none },
              .error .invalidPublicKey))
    ∨ (∃ u : Nat, bigMod (SetBytes xB : Int) c.s.g.N ≠ 0
      ∧ c.s.computeU c.xA (SetBytes xB : Int) = .ok u
      ∧ c.Compute salt xB
          = (c.populated salt (SetBytes xB : Int) u,
              .ok (c.populated salt (SetBytes xB : Int) u).m1)) := by
  have _ := hN
  by_cases h0 : bigMod (SetBytes xB : Int) c.s.g.N = 0
  · left
    exact ⟨h0, by simp [Client.Compute, h0]⟩
  · right
    cases hu : c.s.computeU c.xA (SetBytes xB : Int) with
    | error e =>
      left
      have he := computeU_error _ _ _ _ hu
      subst he
      exact ⟨h0, rfl, by simp [Client.Compute, h0, hu]⟩
    | ok u =>
      right
      exact ⟨u, h0, rfl, by simp [Client.Compute, Client.populated, h0, hu]⟩

/-- Claim C13 as stated fails: with the scrambling parameter overridden to 0,
`Compute` on salt 03 and the server public value 11 (hex) returns
`ErrInvalidPublicKey`, yet the server public value and the salt of the client
have changed. -/
theorem Client_Compute_not_atomic :
    zeroUSRP.NewClient [1] [2] [2] = .ok zeroUClient
    ∧ (zeroUClient.Compute [3] [17]).2 = .error .invalidPublicKey
    ∧ zeroUClient.xB = none ∧ (zeroUClient.Compute [3] [17]).1.xB = some 17
    ∧ zeroUClient.salt = [] ∧ (zeroUClient.Compute [3] [17]).1.salt = [3] :=
  ⟨rfl, by decide, by decide, by decide, by decide, by decide⟩

/-- An instance of C13: the client of `zeroUSRP` on salt 03 and the server
public value 11 (hex). -/
theorem Client_Compute_outcomes_witness :
    (0 : Int) < zeroUClient.s.g.N
    ∧ ((bigMod (SetBytes [17] : Int) zeroUClient.s.g.N = 0
        ∧ zeroUClient.Compute [3] [17] = (zeroUClient, .error .invalidPublicKey))
      ∨ (bigMod (SetBytes [17] : Int) zeroUClient.s.g.N ≠ 0
        ∧ zeroUClient.s.computeU zeroUClient.xA (SetBytes [17] : Int) = .error .invalidPublicKey
        ∧ zeroUClient.Compute [3] [17]
            = ({ zeroUClient with xB := some (SetBytes [17] : Int), salt := [3], u := none },
                .error .invalidPublicKey))
      ∨ (∃ u : Nat, bigMod (SetBytes [17] : Int) zeroUClient.s.g.N ≠ 0
        ∧ zeroUClient.s.computeU zeroUClient.xA (SetBytes [17] : Int) = .ok u
        ∧ zeroUClient.Compute [3] [17]
            = (zeroUClient.populated [3] (SetBytes [17] : Int) u,
                .ok (zeroUClient.populated [3] (SetBytes [17] : Int) u).m1))) :=
  ⟨by decide, Client_Compute_outcomes zeroUClient (by decide) [3] [17]⟩

/-- Claim C14 (amended).  A session whose stored proof is still empty rejects
every non-empty proof: a client with empty `M2` answers `Check m` with the
mismatched-proof error and a server with empty `M1` likewise.  The stored
proof is empty in every client returned by `NewClient`, stays empty under
`SetIdentity` and under every `Compute` that does not succeed, is empty in
`new(Server)` and stays empty under every `Reset` that fails. -/
theorem check_before_populated (c : Client) (s : Server) (m : Bytes) (hm : m ≠ [])
    (hc : c.m2 = []) (hs : s.m1 = []) :
    (c.Check m = some .mismatchedProof ∧ s.Check m = .error .mismatchedProof)
    ∧ ((∀ (srp : SRP) (identity password rnd : Bytes) (c0 : Client),
          srp.NewClient identity password rnd = .ok c0 → c0.m2 = [])
      ∧ (∀ identity : Bytes, (c.SetIdentity identity).m2 = [])
      ∧ (∀ salt xB : Bytes, (∃ m1, (c.Compute salt xB).2 = .ok m1)
          ∨ (c.Compute salt xB).1.m2 = []))
    ∧ (Server.zero.m1 = []
      ∧ (∀ (srp : SRP) (i : ISV) (pub rnd : Bytes), (s.Reset srp i pub rnd).2 = none
          ∨ (s.Reset srp i pub rnd).1.m1 = [])) := by
  have hne : ∀ x : Bytes, x = [] → ConstantTimeCompare m x ≠ 1 := by
    intro x hx h1
    exact hm (((ConstantTimeCompare_eq_one m x).mp h1).trans hx)
  refine ⟨⟨?_, ?_⟩, ⟨?_, ?_, ?_⟩, ⟨rfl, ?_⟩⟩
  · simp [Client.Check, hne c.m2 hc]
  · simp [Server.Check, hne s.m1 hs]
  · intro srp identity password rnd c0 h
    unfold SRP.NewClient at h
    split at h
    · exact absurd h (by simp)
    · simp only [Except.ok.injEq] at h
      rw [← h]
  · intro identity
    exact hc
  · intro salt xB
    unfold Client.Compute
    simp only
    split
    · right; exact hc
    · split
      · right; exact hc
      · left; exact ⟨_, rfl⟩
  · intro srp i pub rnd
    unfold Server.Reset
    simp only
    split
    · right; exact hs
    · split
      · right; exact hs
      · split
        · right; exact hs
        · left; rfl

/-- An instance of C14: the proof 01 on the example client and on
`new(Server)`. -/
theorem check_before_populated_witness :
    (([1] : Bytes) ≠ [] ∧ exampleClient.m2 = [] ∧ Server.zero.m1 = [])
    ∧ ((exampleClient.Check [1] = some .mismatchedProof
        ∧ Server.zero.Check [1] = .error .mismatchedProof)
      ∧ ((∀ (srp : SRP) (identity password rnd : Bytes) (c0 : Client),
            srp.NewClient identity password rnd = .ok c0 → c0.m2 = [])
        ∧ (∀ identity : Bytes, (exampleClient.SetIdentity identity).m2 = [])
        ∧ (∀ salt xB : Bytes, (∃ m1, (exampleClient.Compute salt xB).2 = .ok m1)
            ∨ (exampleClient.Compute salt xB).1.m2 = []))
      ∧ (Server.zero.m1 = []
        ∧ (∀ (srp : SRP) (i : ISV) (pub rnd : Bytes), (Server.zero.Reset srp i pub rnd).2 = none
            ∨ (Server.zero.Reset srp i pub rnd).1.m1 = []))) :=
  ⟨⟨by decide, rfl, rfl⟩,
    check_before_populated exampleClient Server.zero [1] (by decide) rfl rfl⟩

/-- Claim C14 as stated fails: the client just returned by `NewClient` accepts
the empty proof, `new(Server)` answers the empty proof with a nil `M2` and no
error, and a server on which `UnmarshalBinary` failed with `ErrTrailingBytes`
holds the decoded `M1` and accepts it. -/
theorem check_accepts_empty_before_populated :
    (exampleSRP.NewClient [1] [2] [2] = .ok exampleClient ∧ exampleClient.Check [] = none)
    ∧ Server.zero.Check [] = .ok []
    ∧ ((Server.zero.UnmarshalBinary (exampleServerBytes ++ [0])).2 = some .trailingBytes
      ∧ (Server.zero.UnmarshalBinary (exampleServerBytes ++ [0])).1.Check [18] = .ok [2]) :=
  ⟨⟨rfl, by decide⟩, by decide, by decide, by decide⟩

/-! ## The length of an encoded integer -/

theorem SetBytes_cons (d : Byte) (l : Bytes) :
    SetBytes (d :: l) = d.val * 256 ^ l.length + SetBytes l := by
  induction l using List.reverseRecOn with
  | nil => simp [SetBytes]
  | append_singleton l e ih =>
    rw [← List.cons_append, SetBytes_append_singleton, SetBytes_append_singleton, ih]
    simp only [List.length_append, List.length_singleton, pow_succ]
    ring

theorem SetBytes_lt (l : Bytes) : SetBytes l < 256 ^ l.length := by
  induction l using List.reverseRecOn with
  | nil => simp [SetBytes]
  | append_singleton l e ih =>
    rw [SetBytes_append_singleton]
    simp only [List.length_append, List.length_singleton, pow_succ]
    have := e.isLt
    omega

theorem natBytes_length_le (k : Nat) : ∀ (f n : Nat), n < 256 ^ k → (natBytes f n).length ≤ k := by
  induction k with
  | zero =>
    intro f n h
    have h0 : n = 0 := by simpa using h
    subst h0
    cases f <;> simp [natBytes]
  | succ k ih =>
    intro f n h
    cases f with
    | zero => simp [natBytes]
    | succ f =>
      unfold natBytes
      split
      · simp
      · have hq : n / 256 < 256 ^ k := by
          rw [pow_succ] at h
          exact Nat.div_lt_of_lt_mul (by rw [Nat.mul_comm]; exact h)
        have := ih f (n / 256) hq
        simp only [List.length_append, List.length_singleton]
        omega

theorem length_ofInt_SetBytes_le (l : Bytes) : (Bytes.ofInt (SetBytes l : Int)).length ≤ l.length := by
  unfold Bytes.ofInt
  simp only [Int.natAbs_ofNat]
  exact natBytes_length_le _ _ _ (SetBytes_lt l)

theorem length_ofInt_le_of_lt (x m : Int) (h0 : 0 ≤ x) (hlt : x < m) :
    (Bytes.ofInt x).length ≤ (Bytes.ofInt m).length := by
  have h1 : x.natAbs < m.natAbs := by omega
  have h2 : m.natAbs < 256 ^ (Bytes.ofInt m).length := by
    have := SetBytes_lt (Bytes.ofInt m)
    rwa [SetBytes_ofInt] at this
  exact natBytes_length_le _ _ _ (Nat.lt_trans h1 h2)

theorem natBytes_fuel (f n : Nat) (h : n ≤ f) : natBytes f n = natBytes n n := by
  induction f using Nat.strong_induction_on generalizing n with
  | _ f ih =>
    cases f with
    | zero =>
      have h0 : n = 0 := by omega
      subst h0; rfl
    | succ f =>
      cases n with
      | zero => simp [natBytes]
      | succ n =>
        have e1 : natBytes (f + 1) (n + 1) = natBytes f ((n + 1) / 256) ++
            [⟨(n + 1) % 256, Nat.mod_lt _ (by decide)⟩] := by
          simp [natBytes]
        have e2 : natBytes (n + 1) (n + 1) = natBytes n ((n + 1) / 256) ++
            [⟨(n + 1) % 256, Nat.mod_lt _ (by decide)⟩] := by
          simp [natBytes]
        rw [e1, e2]
        have hq : (n + 1) / 256 ≤ n := by omega
        rw [ih f (Nat.lt_succ_self f) _ (by omega)]
        by_cases hn : n = f
        · subst hn; rw [ih n (Nat.lt_succ_self n) _ hq]
        · rw [ih n (by omega) _ hq]

theorem natBytes_mul_add (n : Nat) (d : Byte) (h : n * 256 + d.val ≠ 0) :
    natBytes (n * 256 + d.val) (n * 256 + d.val) = natBytes n n ++ [d] := by
  have hd := d.isLt
  obtain ⟨m, hm⟩ : ∃ m, n * 256 + d.val = m + 1 := ⟨n * 256 + d.val - 1, by omega⟩
  rw [hm]
  have e1 : natBytes (m + 1) (m + 1) = natBytes m ((m + 1) / 256) ++
      [⟨(m + 1) % 256, Nat.mod_lt _ (by decide)⟩] := by
    simp [natBytes]
  have hq : (m + 1) / 256 = n := by omega
  have hr : (⟨(m + 1) % 256, Nat.mod_lt _ (by decide)⟩ : Byte) = d := by
    apply Fin.ext; show (m + 1) % 256 = d.val; omega
  rw [e1, hr, hq, natBytes_fuel m n (by omega)]

theorem ofInt_SetBytes (l : Bytes) (h : l.head? ≠ some 0) : Bytes.ofInt (SetBytes l : Int) = l := by
  unfold Bytes.ofInt
  simp only [Int.natAbs_ofNat]
  induction l using List.reverseRecOn with
  | nil => rfl
  | append_singleton l d ih =>
    rw [SetBytes_append_singleton]
    by_cases hl : l = []
    · subst hl
      have hd : d ≠ 0 := by simpa using h
      have hv : d.val ≠ 0 := fun e => hd (Fin.ext e)
      have := natBytes_mul_add 0 d (by simpa using hv)
      simpa [SetBytes, natBytes] using this
    · have hh : l.head? ≠ some 0 := by
        rwa [List.head?_append_of_ne_nil _ hl] at h
      have ih' := ih hh
      have hne : SetBytes l ≠ 0 := by
        intro e0
        rw [e0] at ih'
        exact hl ih'.symm
      rw [natBytes_mul_add (SetBytes l) d (by omega), ih']


/-! ## Serializing a populated server -/

theorem Server_MarshalBinary_ok (s : Server) (A b B S : Int) (hA : s.xA = some A)
    (hb : s.b = some b) (hB : s.xB = some B) (hS : s.xS = some S)
    (lA : (Bytes.ofInt A).length ≤ 65535) (lb : (Bytes.ofInt b).length ≤ 65535)
    (lB : (Bytes.ofInt B).length ≤ 65535) (lS : (Bytes.ofInt S).length ≤ 65535)
    (l5 : s.salt.length ≤ 65535) (l6 : s.xK.length ≤ 65535) (l7 : s.m1.length ≤ 65535)
    (l8 : s.m2.length ≤ 65535) :
    s.MarshalBinary = .ok (frame (Bytes.ofInt A) ++ frame (Bytes.ofInt b)
      ++ frame (Bytes.ofInt B) ++ frame (Bytes.ofInt S) ++ frame s.salt ++ frame s.xK
      ++ frame s.m1 ++ frame s.m2) := by
  simp only [Server.MarshalBinary, writeInt, ptrBytes, hA, hb, hB, hS, writeBytes_ok _ _ lA,
    writeBytes_ok _ _ lb, writeBytes_ok _ _ lB, writeBytes_ok _ _ lS, writeBytes_ok _ _ l5,
    writeBytes_ok _ _ l6, writeBytes_ok _ _ l7, writeBytes_ok _ _ l8, List.nil_append]

theorem frame_ne_nil (x : Bytes) : frame x ≠ [] := by
  simp [frame]

theorem randBigInt_length (rnd : Bytes) (n : Int) (b : Nat) (h : randBigInt rnd n = .ok b) :
    ((Bytes.ofInt (b : Int)).length : Int) ≤ n := by
  unfold randBigInt randBytes at h
  by_cases hn : n < 0
  · simp [hn] at h
  · simp only [hn, if_false] at h
    cases hr : readFull rnd n.toNat with
    | error e => rw [hr] at h; simp at h
    | ok q =>
      obtain ⟨x, r⟩ := q
      rw [hr] at h
      simp only [Except.ok.injEq] at h
      subst h
      obtain ⟨_, hl⟩ := readFull_eq_ok _ _ _ _ hr
      have := length_ofInt_SetBytes_le x
      omega

theorem bigExp_lt (x : Int) (y : Nat) (m : Int) (hm : 0 < m) : bigExp x y m < m := by
  rw [bigExp_pos x y m hm]
  exact Int.emod_lt_of_pos _ hm

theorem bigMod_lt (x m : Int) (hm : 0 < m) : bigMod x m < m :=
  Int.emod_lt_of_pos _ hm

/-- Claim C15 (amended).  A populated server is serializable when its fields
fit the codec: in a context with `N > 0` whose modulus, group `Size` and hash
digests are each at most 65535 bytes, for every ISV whose salt is at most
65535 bytes and every client public value of at most 65535 bytes for which
`Server.Reset` (so also `NewServer`) returns no error, `MarshalBinary` on the
resulting server returns a non-empty byte string and no error. -/
theorem populated_server_serializable (srp : SRP) (i : ISV) (pub rnd : Bytes) (s0 : Server)
    (hN : 0 < srp.g.N) (hNlen : (Bytes.ofInt srp.g.N).length ≤ 65535)
    (hSize : srp.g.Size ≤ 65535) (hh : ∀ x, (srp.h.sum x).length ≤ 65535)
    (hsalt : i.Salt.length ≤ 65535) (hpub : pub.length ≤ 65535)
    (hok : (s0.Reset srp i pub rnd).2 = none) :
    ∃ e, (s0.Reset srp i pub rnd).1.MarshalBinary = .ok e ∧ e ≠ [] := by
  by_cases h0 : bigMod (SetBytes pub : Int) srp.g.N = 0
  · simp [Server.Reset, h0] at hok
  cases hb : randBigInt rnd srp.g.Size with
  | error e => simp [Server.Reset, h0, hb] at hok
  | ok b =>
  cases hu : srp.computeU (SetBytes pub : Int)
      (srp.computeB b srp.multiplier (SetBytes i.Verifier : Int)) with
  | error e => simp [Server.Reset, h0, hb, hu] at hok
  | ok u =>
  have lA : (Bytes.ofInt (SetBytes pub : Int)).length ≤ 65535 :=
    Nat.le_trans (length_ofInt_SetBytes_le pub) hpub
  have lb : (Bytes.ofInt (b : Int)).length ≤ 65535 := by
    have := randBigInt_length rnd _ b hb
    omega
  have lB : (Bytes.ofInt (srp.computeB b srp.multiplier (SetBytes i.Verifier : Int))).length
      ≤ 65535 :=
    Nat.le_trans (length_ofInt_le_of_lt _ _ (bigMod_nonneg _ _ hN) (bigMod_lt _ _ hN)) hNlen
  have lS : (Bytes.ofInt (srp.computeServerS (SetBytes pub : Int) b u
      (SetBytes i.Verifier : Int))).length ≤ 65535 :=
    Nat.le_trans (length_ofInt_le_of_lt _ _ (bigExp_nonneg _ _ _ hN) (bigExp_lt _ _ _ hN)) hNlen
  simp only [Server.Reset, h0, hb, hu, if_false]
  exact ⟨_, Server_MarshalBinary_ok _ _ _ _ _ rfl rfl rfl rfl lA lb lB lS hsalt (hh _) (hh _)
    (hh _), by simp [frame]⟩


theorem SetBytes_replicate_zero (k : Nat) : SetBytes (List.replicate k (0 : Byte)) = 0 := by
  induction k with
  | zero => rfl
  | succ k ih =>
    rw [List.replicate_succ, SetBytes_cons, ih]
    simp

theorem length_one_zeros (k : Nat) : ((1 : Byte) :: List.replicate k 0).length = k + 1 := by
  simp only [List.length_cons, List.length_replicate]

theorem SetBytes_one_zeros (k : Nat) :
    SetBytes ((1 : Byte) :: List.replicate k 0) = 256 ^ k := by
  rw [SetBytes_cons, SetBytes_replicate_zero, List.length_replicate]
  simp

theorem ofInt_one_zeros (k : Nat) :
    Bytes.ofInt (SetBytes ((1 : Byte) :: List.replicate k 0) : Int)
      = (1 : Byte) :: List.replicate k 0 := by
  apply ofInt_SetBytes
  simp only [List.head?_cons]
  decide

theorem pow_256_mod_23 (q : Nat) : ((256 ^ (11 * q + 8) : Nat) : Int) % 23 = 6 := by
  push_cast
  have h11 : (256 : Int) ^ 11 ≡ 1 [ZMOD 23] := by decide
  have h8 : (256 : Int) ^ 8 ≡ 6 [ZMOD 23] := by decide
  have h := (h11.pow q).mul h8
  rw [← pow_mul, ← pow_add, one_pow, one_mul] at h
  exact h

theorem bigPublic_length : bigPublic.length = 65536 :=
  length_one_zeros 65535

theorem ofInt_bigPublic : Bytes.ofInt (SetBytes bigPublic : Int) = bigPublic :=
  ofInt_one_zeros 65535

theorem bigPublic_mod : bigMod (SetBytes bigPublic : Int) 23 = 6 := by
  have h := pow_256_mod_23 5957
  have e2 : 11 * 5957 + 8 = 65535 := by norm_num
  have e : SetBytes bigPublic = 256 ^ 65535 := SetBytes_one_zeros 65535
  rw [e2] at h
  rw [e]
  exact h


theorem bigPublic_accepted : ¬ bigMod (SetBytes bigPublic : Int) exampleSRP.g.N = 0 := by
  show ¬ bigMod (SetBytes bigPublic : Int) 23 = 0
  rw [bigPublic_mod]; decide

theorem bigPublic_pad : Pad (SetBytes bigPublic : Int) exampleSRP.g.Size = bigPublic := by
  have hlt : ¬ ((bigPublic.length : Int) < exampleSRP.g.Size) := by
    rw [bigPublic_length]; decide
  simp only [Pad, ofInt_bigPublic, hlt, if_false]

theorem bigPublic_hash (xB : Int) : exampleSRP.HashInt [Pad (SetBytes bigPublic : Int) exampleSRP.g.Size,
        Pad xB exampleSRP.g.Size] = 1 := by
  rw [bigPublic_pad]
  rfl


theorem computeU_default (s : SRP) (xA xB : Int) (v : Nat) (hnone : s.u = none)
    (hv : s.HashInt [Pad xA s.g.Size, Pad xB s.g.Size] = v) (h0 : v ≠ 0) :
    s.computeU xA xB = .ok v := by
  simp only [SRP.computeU, hnone, hv, h0, if_false]

theorem Server_Reset_ok (s0 : Server) (srp : SRP) (i : ISV) (pub rnd : Bytes) (b u : Nat)
    (h0 : ¬ bigMod (SetBytes pub : Int) srp.g.N = 0)
    (hb : randBigInt rnd srp.g.Size = .ok b)
    (hu : srp.computeU (SetBytes pub : Int)
      (srp.computeB b srp.multiplier (SetBytes i.Verifier : Int)) = .ok u) :
    (s0.Reset srp i pub rnd).2 = none
    ∧ (s0.Reset srp i pub rnd).1.xA = some (SetBytes pub : Int) := by
  simp only [Server.Reset, h0, hb, hu, if_false, and_self]

theorem Server_MarshalBinary_tooBig (s : Server) (A : Int) (hA : s.xA = some A)
    (h : 65535 < (Bytes.ofInt A).length) : s.MarshalBinary = .error .tooBig := by
  simp only [Server.MarshalBinary, writeInt, ptrBytes, hA, writeBytes_tooBig _ _ h]

theorem NewServer_eq (srp : SRP) (i : ISV) (pub rnd : Bytes) :
    srp.NewServer i pub rnd = Server.zero.Reset srp i pub rnd :=
  rfl

/-- Claim C15 as stated fails: in the example context `NewServer` accepts the
65536-byte client public value 01 00 ... 00 (it is 6 modulo 23) and returns no
error, and `MarshalBinary` on the resulting server returns `ErrTooBig`. -/
theorem large_public_value_not_serializable :
    (exampleSRP.NewServer ⟨[1], [3], [10]⟩ bigPublic [7]).2 = none
    ∧ (exampleSRP.NewServer ⟨[1], [3], [10]⟩ bigPublic [7]).1.MarshalBinary
        = .error .tooBig := by
  have hb : randBigInt [7] exampleSRP.g.Size = .ok 7 := by decide
  have hu := computeU_default exampleSRP (SetBytes bigPublic : Int)
    (exampleSRP.computeB 7 exampleSRP.multiplier (SetBytes (ISV.mk [1] [3] [10]).Verifier : Int))
    1 rfl (bigPublic_hash _) (by decide)
  have hr := Server_Reset_ok Server.zero exampleSRP ⟨[1], [3], [10]⟩ bigPublic [7] 7 1
    bigPublic_accepted hb hu
  have hbig : 65535 < (Bytes.ofInt (SetBytes bigPublic : Int)).length := by
    rw [ofInt_bigPublic, bigPublic_length]; decide
  have he : exampleSRP.NewServer ⟨[1], [3], [10]⟩ bigPublic [7]
      = Server.zero.Reset exampleSRP ⟨[1], [3], [10]⟩ bigPublic [7] :=
    NewServer_eq exampleSRP ⟨[1], [3], [10]⟩ bigPublic [7]
  rw [he]
  exact ⟨hr.1, Server_MarshalBinary_tooBig
    (Server.zero.Reset exampleSRP ⟨[1], [3], [10]⟩ bigPublic [7]).1 (SetBytes bigPublic : Int)
    hr.2 hbig⟩


/-- An instance of C15: the example context, the ISV (01, 03, 0a), the client
public value 02 and the random byte 07. -/
theorem populated_server_serializable_witness :
    ((0 : Int) < exampleSRP.g.N ∧ (Bytes.ofInt exampleSRP.g.N).length ≤ 65535
      ∧ exampleSRP.g.Size ≤ 65535 ∧ (∀ x, (exampleSRP.h.sum x).length ≤ 65535)
      ∧ (ISV.mk [1] [3] [10]).Salt.length ≤ 65535 ∧ ([2] : Bytes).length ≤ 65535
      ∧ (Server.zero.Reset exampleSRP ⟨[1], [3], [10]⟩ [2] [7]).2 = none)
    ∧ ∃ e, (Server.zero.Reset exampleSRP ⟨[1], [3], [10]⟩ [2] [7]).1.MarshalBinary = .ok e
        ∧ e ≠ [] :=
  have hh : ∀ x : Bytes, (exampleSRP.h.sum x).length ≤ 65535 := fun x => by
    show (x.take 1).length ≤ 65535
    rw [List.length_take]
    omega
  ⟨⟨by decide, by decide, by decide, hh, by decide, by decide, by decide⟩,
    populated_server_serializable exampleSRP ⟨[1], [3], [10]⟩ [2] [7] Server.zero (by decide)
      (by decide) (by decide) hh (by decide) (by decide) (by decide)⟩

/-! ## Enrollment -/

theorem emod_natAbs (x m : Int) : x % (m.natAbs : Int) = x % m := by
  rcases Int.natAbs_eq m with h | h
  · rw [← h]
  · conv_rhs => rw [h]
    rw [Int.emod_neg]

theorem bigExp_eq_emod (x : Int) (y : Nat) (m : Int) : bigExp x y m = x ^ y % m := by
  unfold bigExp
  by_cases h0 : m = 0
  · rw [if_pos h0, h0, Int.emod_zero]
  · rw [if_neg h0, emod_natAbs]

/-- Claim C16.  Enrollment: for every context, identity and password, when the
random source delivers the `Size` bytes `r`, `NewISV` returns the ISV with
Identity = identity, Salt = `r` and Verifier = the minimal big-endian byte
string of `g^x mod N` (it reads as that value and has no leading zero byte),
where `x = computeX identity password r`; `computeX` is
`HashInt(r, HashBytes(identity, ":", password))` by default and the override's
result when one is set. -/
theorem NewISV_spec (s : SRP) (identity password r rest : Bytes)
    (hr : (r.length : Int) = s.g.Size) :
    s.NewISV identity password (r ++ rest)
        = .ok ⟨identity, r,
            Bytes.ofInt (s.g.G ^ s.computeX identity password r % s.g.N)⟩
    ∧ IsMinimalBE (s.g.G ^ s.computeX identity password r % s.g.N).natAbs
        (Bytes.ofInt (s.g.G ^ s.computeX identity password r % s.g.N))
    ∧ (∀ (h : Hash) (g : Group) (k : Option (Hash → Group → Int))
        (u : Option (Hash → Group → Int → Int → Nat)),
        (SRP.mk h g none k u).computeX identity password r
          = (SRP.mk h g none k u).HashInt
              [r, (SRP.mk h g none k u).HashBytes [identity, [58], password]])
    ∧ (∀ (h : Hash) (g : Group) (f : Hash → Group → Bytes → Bytes → Bytes → Nat)
        (k : Option (Hash → Group → Int)) (u : Option (Hash → Group → Int → Int → Nat)),
        (SRP.mk h g (some f) k u).computeX identity password r = f h g identity password r) := by
  have hn : ¬ s.g.Size < 0 := by omega
  have hl : s.g.Size.toNat = r.length := by omega
  have hrd : randBytes (r ++ rest) s.g.Size = .ok r := by
    simp only [randBytes, hn, if_false, hl, readFull_append]
  refine ⟨?_, ofInt_isMinimalBE _, ?_, ?_⟩
  · simp only [SRP.NewISV, hrd, SRP.computeV, bigExp_eq_emod]
  · intro h g k u
    rfl
  · intro h g f k u
    rfl

/-- An instance of C16: identity 01, password 02 and the random bytes 03 09 in
the example context, whose `Size` is 1. -/
theorem NewISV_spec_witness :
    ((([3] : Bytes).length : Int) = exampleSRP.g.Size)
    ∧ (exampleSRP.NewISV [1] [2] ([3] ++ [9])
          = .ok ⟨[1], [3],
              Bytes.ofInt (exampleSRP.g.G ^ exampleSRP.computeX [1] [2] [3] % exampleSRP.g.N)⟩
      ∧ IsMinimalBE (exampleSRP.g.G ^ exampleSRP.computeX [1] [2] [3] % exampleSRP.g.N).natAbs
          (Bytes.ofInt (exampleSRP.g.G ^ exampleSRP.computeX [1] [2] [3] % exampleSRP.g.N))
      ∧ (∀ (h : Hash) (g : Group) (k : Option (Hash → Group → Int))
          (u : Option (Hash → Group → Int → Int → Nat)),
          (SRP.mk h g none k u).computeX [1] [2] [3]
            = (SRP.mk h g none k u).HashInt
                [[3], (SRP.mk h g none k u).HashBytes [[1], [58], [2]]])
      ∧ (∀ (h : Hash) (g : Group) (f : Hash → Group → Bytes → Bytes → Bytes → Nat)
          (k : Option (Hash → Group → Int)) (u : Option (Hash → Group → Int → Int → Nat)),
          (SRP.mk h g (some f) k u).computeX [1] [2] [3] = f h g [1] [2] [3])) :=
  ⟨by decide, NewISV_spec exampleSRP [1] [2] [3] [9] (by decide)⟩

/-! ## Groups -/

theorem fromHexChar_le (c : Byte) (h : isHexDigit c = true) : ¬ fromHexChar c > 15 := by
  have hc := c.isLt
  unfold isHexDigit at h
  simp only [Bool.or_eq_true, Bool.and_eq_true, decide_eq_true_eq] at h
  unfold fromHexChar
  split_ifs <;> omega

theorem hexDecode_hexDigits : ∀ (d : Bytes), (∀ c ∈ d, isHexDigit c = true) →
    (d.length % 2 = 1 → hexDecode d = .error .hexLength)
    ∧ (d.length % 2 = 0 → ∃ bs, hexDecode d = .ok bs
        ∧ ∀ acc, bs.foldl (fun a x => a * 256 + x.val) acc
            = d.foldl (fun a c => a * 16 + fromHexChar c) acc)
  | [], _ => ⟨fun h => absurd h (by decide), fun _ => ⟨[], rfl, fun _ => rfl⟩⟩
  | [p], hd => by
    have hp := fromHexChar_le p (hd p (by simp))
    exact ⟨fun _ => by simp only [hexDecode, hp, if_false], fun h => by simp at h⟩
  | p :: q :: rest, hd => by
    have hp := fromHexChar_le p (hd p (by simp))
    have hq := fromHexChar_le q (hd q (by simp))
    have ih := hexDecode_hexDigits rest (fun c hc => hd c (by simp [hc]))
    have hl : (p :: q :: rest).length % 2 = rest.length % 2 := by
      simp only [List.length_cons]; omega
    rw [hl]
    constructor
    · intro h
      simp only [hexDecode, hp, hq, if_false, ih.1 h]
    · intro h
      obtain ⟨bs, hbs, hf⟩ := ih.2 h
      refine ⟨⟨(fromHexChar p * 16 + fromHexChar q) % 256, Nat.mod_lt _ (by decide)⟩ :: bs,
        by simp only [hexDecode, hp, hq, if_false, hbs], ?_⟩
      intro acc
      simp only [List.foldl_cons]
      rw [hf]
      have e : (fromHexChar p * 16 + fromHexChar q) % 256 = fromHexChar p * 16 + fromHexChar q := by
        apply Nat.mod_eq_of_lt; omega
      simp only [e]
      congr 1
      ring

theorem NewGroup_eq (g size : Int) (s : Bytes) :
    NewGroup g size s
      = if s.countP isHexDigit % 2 = 1 then .error .hexLength
        else .ok ⟨g, (hexValue (hexDigits s) : Int), size >>> 3⟩ := by
  have hd : ∀ c ∈ s.filter isHexDigit, isHexDigit c = true := fun c hc =>
    (List.mem_filter.mp hc).2
  have h := hexDecode_hexDigits (s.filter isHexDigit) hd
  rw [List.countP_eq_length_filter]
  by_cases hodd : (s.filter isHexDigit).length % 2 = 1
  · simp only [NewGroup, BytesFromHexString, h.1 hodd, hodd, if_true]
  · obtain ⟨bs, hbs, hf⟩ := h.2 (by omega)
    have hv : SetBytes bs = hexValue (hexDigits s) := hf 0
    simp only [NewGroup, BytesFromHexString, hbs, hodd, if_false, hv]

/-- Claim C18.  Group construction from hex: for every `g`, `size` and string
`s`, `NewGroup g size s` fails, with `hex.ErrLength`, if and only if the
number of hex-digit characters `[0-9a-fA-F]` in `s` is odd; otherwise it
succeeds with `G = g` and `N` the unsigned integer whose big-endian hex digits
are the hex-digit characters of `s` in order, every other character being
ignored (and with `Size = size >> 3`). -/
theorem NewGroup_spec (g size : Int) (s : Bytes) :
    NewGroup g size s
      = if s.countP isHexDigit % 2 = 1 then .error .hexLength
        else .ok ⟨g, (hexValue (hexDigits s) : Int), size >>> 3⟩ :=
  NewGroup_eq g size s

/-- Claim C19 (amended).  The byte size of a group: for every group returned
without error by `NewGroup g size s`, `Size` equals `size >> 3`, whatever the
modulus is; so it is the length of the minimal big-endian encoding of `N`
exactly when `size >> 3` is that length. -/
theorem NewGroup_Size (g size : Int) (s : Bytes) (grp : Group)
    (h : NewGroup g size s = .ok grp) :
    grp.Size = size >>> 3
    ∧ (grp.Size = ((Bytes.ofInt grp.N).length : Int)
        ↔ size >>> 3 = ((Bytes.ofInt grp.N).length : Int)) := by
  rw [NewGroup_eq] at h
  split at h
  · exact absurd h (by simp)
  · simp only [Except.ok.injEq] at h
    subst h
    exact ⟨rfl, Iff.rfl⟩

/-- An instance of C19: `NewGroup(2, 1024, "ff")`. -/
theorem NewGroup_Size_witness :
    NewGroup 2 1024 [102, 102] = .ok ⟨2, 255, 128⟩
    ∧ ((Group.mk 2 255 128).Size = (1024 : Int) >>> 3
      ∧ ((Group.mk 2 255 128).Size = ((Bytes.ofInt (Group.mk 2 255 128).N).length : Int)
          ↔ (1024 : Int) >>> 3 = ((Bytes.ofInt (Group.mk 2 255 128).N).length : Int))) :=
  ⟨by decide, NewGroup_Size 2 1024 [102, 102] ⟨2, 255, 128⟩ (by decide)⟩

/-- Claim C19 as stated fails: `NewGroup(2, 1024, "ff")` succeeds with
`N = 255`, whose minimal encoding has 1 byte, and `Size = 128`. -/
theorem NewGroup_Size_not_from_modulus :
    NewGroup 2 1024 [102, 102] = .ok ⟨2, 255, 128⟩
    ∧ (Bytes.ofInt (Group.mk 2 255 128).N).length = 1
    ∧ (Group.mk 2 255 128).Size ≠ ((Bytes.ofInt (Group.mk 2 255 128).N).length : Int) := by
  decide


theorem NewGroup_ok (g size : Int) (s : Bytes) (grp : Group)
    (h : Must (NewGroup g size s) = .ok grp) : grp.G = g ∧ grp.Size = size >>> 3 := by
  unfold Must at h
  split at h
  · exact absurd h (by simp)
  · rename_i x hx
    simp only [Except.ok.injEq] at h
    subst h
    rw [NewGroup_eq] at hx
    split at hx
    · exact absurd hx (by simp)
    · simp only [Except.ok.injEq] at hx
      subst hx
      exact ⟨rfl, rfl⟩

theorem rfcGroups_ok (p : PrimeTables) (m : List (Int × Group)) (h : rfcGroups p = .ok m) :
    ∃ g1 g2 g3 g4 g5 g6 g7 : Group,
      m = [(1024, g1), (1536, g2), (2048, g3), (3072, g4), (4096, g5), (6144, g6), (8192, g7)]
      ∧ (g1.G = 2 ∧ g1.Size = 128) ∧ (g2.G = 2 ∧ g2.Size = 192) ∧ (g3.G = 2 ∧ g3.Size = 256)
      ∧ (g4.G = 5 ∧ g4.Size = 384) ∧ (g5.G = 5 ∧ g5.Size = 512) ∧ (g6.G = 5 ∧ g6.Size = 768)
      ∧ (g7.G = 19 ∧ g7.Size = 1024) := by
  unfold rfcGroups at h
  cases h1 : Must (NewGroup 2 1024 p.Hex1024) with
  | error e => rw [h1] at h; exact absurd h (by simp)
  | ok g1 =>
  rw [h1] at h; simp only at h
  cases h2 : Must (NewGroup 2 1536 p.Hex1536) with
  | error e => rw [h2] at h; exact absurd h (by simp)
  | ok g2 =>
  rw [h2] at h; simp only at h
  cases h3 : Must (NewGroup 2 2048 p.Hex2048) with
  | error e => rw [h3] at h; exact absurd h (by simp)
  | ok g3 =>
  rw [h3] at h; simp only at h
  cases h4 : Must (NewGroup 5 3072 p.Hex3072) with
  | error e => rw [h4] at h; exact absurd h (by simp)
  | ok g4 =>
  rw [h4] at h; simp only at h
  cases h5 : Must (NewGroup 5 4096 p.Hex4096) with
  | error e => rw [h5] at h; exact absurd h (by simp)
  | ok g5 =>
  rw [h5] at h; simp only at h
  cases h6 : Must (NewGroup 5 6144 p.Hex6144) with
  | error e => rw [h6] at h; exact absurd h (by simp)
  | ok g6 =>
  rw [h6] at h; simp only at h
  cases h7 : Must (NewGroup 19 8192 p.Hex8192) with
  | error e => rw [h7] at h; exact absurd h (by simp)
  | ok g7 =>
  rw [h7] at h; simp only [Except.ok.injEq] at h
  exact ⟨g1, g2, g3, g4, g5, g6, g7, h.symm, NewGroup_ok _ _ _ _ h1, NewGroup_ok _ _ _ _ h2,
    NewGroup_ok _ _ _ _ h3, NewGroup_ok _ _ _ _ h4, NewGroup_ok _ _ _ _ h5,
    NewGroup_ok _ _ _ _ h6, NewGroup_ok _ _ _ _ h7⟩

theorem GetGroup_lookup (p : PrimeTables) (m : List (Int × Group)) (hm : rfcGroups p = .ok m)
    (n : Int) :
    if n ∈ [1024, 1536, 2048, 3072, 4096, 6144, 8192] then
      ∃ g, GetGroup p n = .ok g ∧ g.Size = n / 8 ∧ g.G = standardGenerator n
    else GetGroup p n = .error .groupNotFound := by
  obtain ⟨g1, g2, g3, g4, g5, g6, g7, em, ⟨a1, b1⟩, ⟨a2, b2⟩, ⟨a3, b3⟩, ⟨a4, b4⟩, ⟨a5, b5⟩,
    ⟨a6, b6⟩, ⟨a7, b7⟩⟩ := rfcGroups_ok p m hm
  subst em
  unfold GetGroup
  rw [hm]
  by_cases h1 : n = 1024
  · subst h1; simp [List.lookup, standardGenerator, a1, b1]
  by_cases h2 : n = 1536
  · subst h2; simp [List.lookup, standardGenerator, a2, b2]
  by_cases h3 : n = 2048
  · subst h3; simp [List.lookup, standardGenerator, a3, b3]
  by_cases h4 : n = 3072
  · subst h4; simp [List.lookup, standardGenerator, a4, b4]
  by_cases h5 : n = 4096
  · subst h5; simp [List.lookup, standardGenerator, a5, b5]
  by_cases h6 : n = 6144
  · subst h6; simp [List.lookup, standardGenerator, a6, b6]
  by_cases h7 : n = 8192
  · subst h7; simp [List.lookup, standardGenerator, a7, b7]
  have hb : ∀ k : Int, n ≠ k → (n == k) = false := fun k hk => by simpa using hk
  simp [List.lookup, h1, h2, h3, h4, h5, h6, h7, hb]

/-- Claim C20.  Standard group registry: in a program whose registry was built
from the prime tables without a panic, `GetGroup n` returns a group without
error if `n` is one of 1024, 1536, 2048, 3072, 4096, 6144, 8192, and then the
group has `Size = n / 8` and generator 2, 2, 2, 5, 5, 5, 19 respectively; for
every other `n` it returns `ErrGroupNotFound` and no group. -/
theorem GetGroup_spec (p : PrimeTables) (m : List (Int × Group)) (hm : rfcGroups p = .ok m)
    (n : Int) :
    if n ∈ [1024, 1536, 2048, 3072, 4096, 6144, 8192] then
      ∃ g, GetGroup p n = .ok g ∧ g.Size = n / 8 ∧ g.G = standardGenerator n
    else GetGroup p n = .error .groupNotFound :=
  GetGroup_lookup p m hm n

/-- An instance of C20: `GetGroup(1536)` over the example tables. -/
theorem GetGroup_spec_witness :
    rfcGroups examplePrimes = .ok exampleRegistry
    ∧ (if (1536 : Int) ∈ [1024, 1536, 2048, 3072, 4096, 6144, 8192] then
        ∃ g, GetGroup examplePrimes 1536 = .ok g ∧ g.Size = 1536 / 8
          ∧ g.G = standardGenerator 1536
      else GetGroup examplePrimes 1536 = .error .groupNotFound) :=
  ⟨by decide, GetGroup_spec examplePrimes exampleRegistry (by decide) 1536⟩

theorem GetGroup_1024_Size (p : PrimeTables) (g : Group) (hg : GetGroup p 1024 = .ok g) :
    g.Size = 128 := by
  cases hm : rfcGroups p with
  | error e => simp [GetGroup, hm] at hg
  | ok m =>
    have h := GetGroup_lookup p m hm 1024
    simp only [List.mem_cons, true_or, if_true] at h
    obtain ⟨g', h1, h2, _⟩ := h
    rw [hg] at h1
    simp only [Except.ok.injEq] at h1
    rw [h1, h2]
    decide

theorem randBigInt_zeros (k : Nat) : randBigInt (List.replicate k (0 : Byte)) (k : Int) = .ok 0 := by
  have hn : ¬ ((k : Int) < 0) := by omega
  have hr : readFull (List.replicate k (0 : Byte)) k = .ok (List.replicate k 0, []) := by
    have := readFull_append (List.replicate k (0 : Byte)) []
    rwa [List.append_nil, List.length_replicate] at this
  simp only [randBigInt, randBytes, hn, if_false, Int.toNat_ofNat, hr, SetBytes_replicate_zero]

/-- Claim C17, the code at a failing input: over the registered 1024-bit group
(any prime `N > 1` in the table, any hash), when the random source delivers
128 zero bytes `NewClient` succeeds with `a = 0`, and `Client.A()` is the one
byte 01, not `Size = 128` bytes. -/
theorem Client_A_shorter_than_Size (p : PrimeTables) (g : Group) (h : Hash)
    (identity password : Bytes) (hg : GetGroup p 1024 = .ok g) (hN : 1 < g.N) :
    ∃ c, (SRP.mk h g none none none).NewClient identity password (List.replicate 128 0) = .ok c
      ∧ c.A = [1] ∧ (c.A.length : Int) ≠ g.Size := by
  have hS := GetGroup_1024_Size p g hg
  have hr : randBigInt (List.replicate 128 (0 : Byte)) (SRP.mk h g none none none).g.Size
      = .ok 0 := by
    show randBigInt (List.replicate 128 (0 : Byte)) g.Size = .ok 0
    rw [hS]
    exact randBigInt_zeros 128
  have hA : (SRP.mk h g none none none).computeA 0 = 1 := by
    show bigExp g.G 0 g.N = 1
    rw [bigExp_eq_emod, pow_zero]
    exact Int.emod_eq_of_lt (by decide) hN
  refine ⟨⟨SRP.mk h g none none none, identity, password, [], 0, 1, none, none, none, [], []⟩,
    by simp only [SRP.NewClient, hr, hA], ?_, ?_⟩
  · simp only [Client.A]
    decide
  · simp only [Client.A, hS]
    decide

/-- An instance of the failing input of C17 over the example tables. -/
theorem Client_A_shorter_than_Size_witness :
    (GetGroup examplePrimes 1024 = .ok ⟨2, 23, 128⟩ ∧ (1 : Int) < (Group.mk 2 23 128).N)
    ∧ ∃ c, (SRP.mk exampleSRP.h ⟨2, 23, 128⟩ none none none).NewClient [1] [2]
          (List.replicate 128 0) = .ok c
        ∧ c.A = [1] ∧ (c.A.length : Int) ≠ (Group.mk 2 23 128).Size :=
  ⟨⟨by decide, by decide⟩,
    Client_A_shorter_than_Size examplePrimes ⟨2, 23, 128⟩ exampleSRP.h [1] [2] (by decide)
      (by decide)⟩

/-! ## The context and its options -/

theorem SetK_eq (s : SRP) (f : Option (Hash → Group → Int)) :
    s.SetK f = ({ s with k := f }, none) := rfl

theorem SetX_eq (s : SRP) (f : Option (Hash → Group → Bytes → Bytes → Bytes → Nat)) :
    s.SetX f = ({ s with x := f }, none) := rfl

theorem SetU_eq (s : SRP) (f : Option (Hash → Group → Int → Int → Nat)) :
    s.SetU f = ({ s with u := f }, none) := rfl

theorem SRP_call_h (s : SRP) (c : SRPCall) : (s.call c).h = s.h := by
  cases c with
  | assignGroup field v => cases field <;> rfl
  | _ => rfl

theorem SRP_call_g (s : SRP) (c : SRPCall) (hc : c.writesGroup = false) :
    (s.call c).g = s.g := by
  cases c with
  | assignGroup field v => simp [SRPCall.writesGroup] at hc
  | _ => rfl

theorem SRP_call_k (s : SRP) (c : SRPCall) (hc : c.setsK = false) : (s.call c).k = s.k := by
  cases c with
  | applyK f => simp [SRPCall.setsK] at hc
  | SetK f => simp [SRPCall.setsK] at hc
  | assignGroup field v => cases field <;> rfl
  | _ => rfl

theorem SRP_call_x (s : SRP) (c : SRPCall) (hc : c.setsX = false) : (s.call c).x = s.x := by
  cases c with
  | applyX f => simp [SRPCall.setsX] at hc
  | SetX f => simp [SRPCall.setsX] at hc
  | assignGroup field v => cases field <;> rfl
  | _ => rfl

theorem SRP_call_u (s : SRP) (c : SRPCall) (hc : c.setsU = false) : (s.call c).u = s.u := by
  cases c with
  | applyU f => simp [SRPCall.setsU] at hc
  | SetU f => simp [SRPCall.setsU] at hc
  | assignGroup field v => cases field <;> rfl
  | _ => rfl

theorem SRP_call_eq_self (s : SRP) (c : SRPCall) (hg : c.writesGroup = false)
    (hk : c.setsK = false) (hx : c.setsX = false) (hu : c.setsU = false) : s.call c = s := by
  cases c with
  | applyK f => simp [SRPCall.setsK] at hk
  | SetK f => simp [SRPCall.setsK] at hk
  | applyX f => simp [SRPCall.setsX] at hx
  | SetX f => simp [SRPCall.setsX] at hx
  | applyU f => simp [SRPCall.setsU] at hu
  | SetU f => simp [SRPCall.setsU] at hu
  | assignGroup field v => simp [SRPCall.writesGroup] at hg
  | _ => rfl

theorem SRP_calls_h (s : SRP) (cs : List SRPCall) : (s.calls cs).h = s.h := by
  induction cs generalizing s with
  | nil => rfl
  | cons c rest ih => exact (ih (s.call c)).trans (SRP_call_h s c)

theorem SRP_calls_g (s : SRP) (cs : List SRPCall) (hcs : ∀ c ∈ cs, c.writesGroup = false) :
    (s.calls cs).g = s.g := by
  induction cs generalizing s with
  | nil => rfl
  | cons c rest ih =>
    exact (ih (s.call c) (fun d hd => hcs d (List.mem_cons_of_mem c hd))).trans
      (SRP_call_g s c (hcs c (List.mem_cons_self c rest)))

theorem SRP_calls_k (s : SRP) (cs : List SRPCall) (hcs : ∀ c ∈ cs, c.setsK = false) :
    (s.calls cs).k = s.k := by
  induction cs generalizing s with
  | nil => rfl
  | cons c rest ih =>
    exact (ih (s.call c) (fun d hd => hcs d (List.mem_cons_of_mem c hd))).trans
      (SRP_call_k s c (hcs c (List.mem_cons_self c rest)))

theorem SRP_calls_x (s : SRP) (cs : List SRPCall) (hcs : ∀ c ∈ cs, c.setsX = false) :
    (s.calls cs).x = s.x := by
  induction cs generalizing s with
  | nil => rfl
  | cons c rest ih =>
    exact (ih (s.call c) (fun d hd => hcs d (List.mem_cons_of_mem c hd))).trans
      (SRP_call_x s c (hcs c (List.mem_cons_self c rest)))

theorem SRP_calls_u (s : SRP) (cs : List SRPCall) (hcs : ∀ c ∈ cs, c.setsU = false) :
    (s.calls cs).u = s.u := by
  induction cs generalizing s with
  | nil => rfl
  | cons c rest ih =>
    exact (ih (s.call c) (fun d hd => hcs d (List.mem_cons_of_mem c hd))).trans
      (SRP_call_u s c (hcs c (List.mem_cons_self c rest)))

theorem multiplier_congr (s t : SRP) (hh : t.h = s.h) (hg : t.g = s.g) (hk : t.k = s.k) :
    t.multiplier = s.multiplier := by
  simp only [SRP.multiplier, SRP.HashInt, SRP.HashBytes, hh, hg, hk]

theorem computeU_congr (s t : SRP) (hh : t.h = s.h) (hg : t.g = s.g) (hu : t.u = s.u)
    (xA xB : Int) : t.computeU xA xB = s.computeU xA xB := by
  simp only [SRP.computeU, SRP.HashInt, SRP.HashBytes, hh, hg, hu]

theorem computeX_congr (s t : SRP) (hh : t.h = s.h) (hg : t.g = s.g) (hx : t.x = s.x)
    (identity password salt : Bytes) :
    t.computeX identity password salt = s.computeX identity password salt := by
  simp only [SRP.computeX, SRP.HashInt, SRP.HashBytes, hh, hg, hx]

/-- Claim C21 (amended).  Over every sequence of exported operations on a
context: the hash never changes; the group changes only by an assignment
through the pointer that `Group()` returns; the multiplier function changes
only by the option `K(f)` or `SetK`, the private-key derivation only by `X(f)`
or `SetX`, the scrambling function only by `U(f)` or `SetU`; so
`multiplier()`, `computeU` and `computeX` return the same values as long as
the group is not assigned to and the function they use is not stored again.
Each option and setter returns no error and replaces exactly the one
function it names, an assignment to a field of the group changes that field
alone, and every other exported operation leaves the context as it was.
`NewSRP` without options leaves the three functions nil, and
with the options `K`, `U`, `X` stores them. -/
theorem context_changes_only_by_options_and_group_writes (s : SRP) (cs : List SRPCall)
    (fk : Option (Hash → Group → Int))
    (fx : Option (Hash → Group → Bytes → Bytes → Bytes → Nat))
    (fu : Option (Hash → Group → Int → Int → Nat)) (v xA xB : Int)
    (identity password salt : Bytes) :
    (s.calls cs).h = s.h
    ∧ ((∀ c ∈ cs, c.writesGroup = false) → (s.calls cs).g = s.g)
    ∧ ((∀ c ∈ cs, c.setsK = false) → (s.calls cs).k = s.k)
    ∧ ((∀ c ∈ cs, c.setsX = false) → (s.calls cs).x = s.x)
    ∧ ((∀ c ∈ cs, c.setsU = false) → (s.calls cs).u = s.u)
    ∧ ((∀ c ∈ cs, c.writesGroup = false ∧ c.setsK = false) →
        (s.calls cs).multiplier = s.multiplier)
    ∧ ((∀ c ∈ cs, c.writesGroup = false ∧ c.setsU = false) →
        (s.calls cs).computeU xA xB = s.computeU xA xB)
    ∧ ((∀ c ∈ cs, c.writesGroup = false ∧ c.setsX = false) →
        (s.calls cs).computeX identity password salt = s.computeX identity password salt)
    ∧ (s.SetK fk = ({ s with k := fk }, none) ∧ s.SetX fx = ({ s with x := fx }, none)
      ∧ s.SetU fu = ({ s with u := fu }, none))
    ∧ (K fk s = ({ s with k := fk }, none) ∧ X fx s = ({ s with x := fx }, none)
      ∧ U fu s = ({ s with u := fu }, none))
    ∧ (s.assignGroup .G v = { s with g := ⟨v, s.g.N, s.g.Size⟩ }
      ∧ s.assignGroup .N v = { s with g := ⟨s.g.G, v, s.g.Size⟩ }
      ∧ s.assignGroup .Size v = { s with g := ⟨s.g.G, s.g.N, v⟩ })
    ∧ (∀ c : SRPCall, c.writesGroup = false → c.setsK = false → c.setsX = false →
        c.setsU = false → s.call c = s)
    ∧ (NewSRP s.h s.g [] = .ok ⟨s.h, s.g, none, none, none⟩
      ∧ NewSRP s.h s.g [K fk, U fu, X fx] = .ok ⟨s.h, s.g, fx, fk, fu⟩) :=
  ⟨SRP_calls_h s cs, SRP_calls_g s cs, SRP_calls_k s cs, SRP_calls_x s cs, SRP_calls_u s cs,
    fun hcs => multiplier_congr s (s.calls cs) (SRP_calls_h s cs)
      (SRP_calls_g s cs (fun c hc => (hcs c hc).1)) (SRP_calls_k s cs (fun c hc => (hcs c hc).2)),
    fun hcs => computeU_congr s (s.calls cs) (SRP_calls_h s cs)
      (SRP_calls_g s cs (fun c hc => (hcs c hc).1)) (SRP_calls_u s cs (fun c hc => (hcs c hc).2))
      xA xB,
    fun hcs => computeX_congr s (s.calls cs) (SRP_calls_h s cs)
      (SRP_calls_g s cs (fun c hc => (hcs c hc).1)) (SRP_calls_x s cs (fun c hc => (hcs c hc).2))
      identity password salt,
    ⟨rfl, rfl, rfl⟩, ⟨rfl, rfl, rfl⟩, ⟨rfl, rfl, rfl⟩, SRP_call_eq_self s, ⟨rfl, rfl⟩⟩

/-- An instance of C21 on the example context: over `exampleCalls`, which
call `SetX` and apply the option `U(f)`, the group, the multiplier function
and `multiplier()` stay as they were; over `exampleCallsK`, which call `SetK`
and assign the group size, the other two functions stay as they were; and
over operations that store nothing, `computeU` and `computeX` return the
same values. -/
theorem context_changes_only_by_options_and_group_writes_witness :
    ((∀ c ∈ exampleCalls, c.writesGroup = false) ∧ (∀ c ∈ exampleCalls, c.setsK = false)
      ∧ (∀ c ∈ exampleCalls, c.writesGroup = false ∧ c.setsK = false)
      ∧ (exampleSRP.calls exampleCalls).h = exampleSRP.h
      ∧ (exampleSRP.calls exampleCalls).g = exampleSRP.g
      ∧ (exampleSRP.calls exampleCalls).k = exampleSRP.k
      ∧ (exampleSRP.calls exampleCalls).multiplier = exampleSRP.multiplier)
    ∧ ((∀ c ∈ exampleCallsK, c.setsX = false) ∧ (∀ c ∈ exampleCallsK, c.setsU = false)
      ∧ (exampleSRP.calls exampleCallsK).x = exampleSRP.x
      ∧ (exampleSRP.calls exampleCallsK).u = exampleSRP.u)
    ∧ ((∀ c ∈ [SRPCall.SetK none, .NewClient [1] [2] [4]],
          c.writesGroup = false ∧ c.setsU = false)
      ∧ (∀ c ∈ [SRPCall.SetK none, .NewClient [1] [2] [4]],
          c.writesGroup = false ∧ c.setsX = false)
      ∧ (exampleSRP.calls [.SetK none, .NewClient [1] [2] [4]]).computeU 4 8
          = exampleSRP.computeU 4 8
      ∧ (exampleSRP.calls [.SetK none, .NewClient [1] [2] [4]]).computeX [1] [2] [3]
          = exampleSRP.computeX [1] [2] [3]) :=
  ⟨⟨by decide, by decide, by decide,
      (context_changes_only_by_options_and_group_writes exampleSRP exampleCalls none none none
        0 0 0 [] [] []).1,
      (context_changes_only_by_options_and_group_writes exampleSRP exampleCalls none none none
        0 0 0 [] [] []).2.1 (by decide),
      (context_changes_only_by_options_and_group_writes exampleSRP exampleCalls none none none
        0 0 0 [] [] []).2.2.1 (by decide),
      (context_changes_only_by_options_and_group_writes exampleSRP exampleCalls none none none
        0 0 0 [] [] []).2.2.2.2.2.1 (by decide)⟩,
    ⟨by decide, by decide,
      (context_changes_only_by_options_and_group_writes exampleSRP exampleCallsK none none none
        0 0 0 [] [] []).2.2.2.1 (by decide),
      (context_changes_only_by_options_and_group_writes exampleSRP exampleCallsK none none none
        0 0 0 [] [] []).2.2.2.2.1 (by decide)⟩,
    ⟨by decide, by decide,
      (context_changes_only_by_options_and_group_writes exampleSRP
        [.SetK none, .NewClient [1] [2] [4]] none none none 0 4 8 [1] [2] [3]).2.2.2.2.2.2.1
        (by decide),
      (context_changes_only_by_options_and_group_writes exampleSRP
        [.SetK none, .NewClient [1] [2] [4]] none none none 0 4 8 [1] [2] [3]).2.2.2.2.2.2.2.1
        (by decide)⟩⟩

/-- Claim C21 as stated fails: on the context returned by `NewSRP` the
exported `SetK` returns no error and `multiplier()` changes from 23 to 1, as
`TestSRP_multiplier` does. -/
theorem SetK_changes_multiplier :
    NewSRP exampleSRP.h exampleSRP.g [] = .ok exampleSRP
    ∧ exampleSRP.multiplier = 23
    ∧ (exampleSRP.SetK (some (fun _ _ => 1))).2 = none
    ∧ (exampleSRP.SetK (some (fun _ _ => 1))).1.multiplier = 1
    ∧ (exampleSRP.SetK (some (fun _ _ => 1))).1.multiplier ≠ exampleSRP.multiplier :=
  ⟨rfl, by decide, by decide, by decide, by decide⟩

/-- The option `K(f)` applied to a context stores the function without any
setter being called: `multiplier()` changes from 23 to 1. -/
theorem applyK_changes_multiplier :
    exampleSRP.multiplier = 23
    ∧ (K (some (fun _ _ => 1)) exampleSRP).2 = none
    ∧ (K (some (fun _ _ => 1)) exampleSRP).1.multiplier = 1
    ∧ (exampleSRP.call (.applyK (some (fun _ _ => 1)))).multiplier ≠ exampleSRP.multiplier :=
  ⟨by decide, by decide, by decide, by decide⟩

/-- An assignment to `N` through the pointer of `Group()` changes what the
default `multiplier()` returns, the three functions being as `NewSRP` left
them: from 23 to 7. -/
theorem assignGroup_changes_multiplier :
    exampleSRP.Group = ⟨5, 23, 1⟩
    ∧ (exampleSRP.assignGroup .N 7).Group = ⟨5, 7, 1⟩
    ∧ (exampleSRP.assignGroup .N 7).k = exampleSRP.k
    ∧ exampleSRP.multiplier = 23
    ∧ (exampleSRP.assignGroup .N 7).multiplier = 7
    ∧ (exampleSRP.call (.assignGroup .N 7)).multiplier ≠ exampleSRP.multiplier :=
  ⟨by decide, by decide, rfl, by decide, by decide, by decide⟩

/-! ## The readiness accessors of the client -/

theorem Client_call_not_ready (c : Client) (op : ClientCall) (h1 : c.xS = none)
    (h2 : c.u = none) (hf : (c.call op).2 = false) :
    (c.call op).1.xS = none ∧ (c.call op).1.u = none := by
  cases op with
  | SetIdentity identity => exact ⟨h1, h2⟩
  | Compute salt xB =>
    simp only [Client.call, Client.Compute] at hf ⊢
    by_cases h0 : bigMod (SetBytes xB : Int) c.s.g.N = 0
    · simp only [h0, if_true]
      exact ⟨h1, h2⟩
    · simp only [h0, if_false] at hf ⊢
      cases hu : c.s.computeU c.xA (SetBytes xB : Int) with
      | error e =>
        simp only [hu]
        exact ⟨h1, trivial⟩
      | ok u =>
        rw [hu] at hf
        simp at hf

theorem Client_calls_not_ready (calls : List ClientCall) : ∀ (c : Client), c.xS = none →
    c.u = none → (c.calls calls).2 = false →
    (c.calls calls).1.xS = none ∧ (c.calls calls).1.u = none := by
  induction calls with
  | nil => intro c h1 h2 _; exact ⟨h1, h2⟩
  | cons op rest ih =>
    intro c h1 h2 hf
    simp only [Client.calls, Bool.or_eq_false_iff] at hf ⊢
    obtain ⟨g1, g2⟩ := Client_call_not_ready c op h1 h2 hf.1
    exact ih _ g1 g2 hf.2

theorem NewClient_not_ready (srp : SRP) (identity password rnd : Bytes) (c0 : Client)
    (h : srp.NewClient identity password rnd = .ok c0) : c0.xS = none ∧ c0.u = none := by
  unfold SRP.NewClient at h
  split at h
  · exact absurd h (by simp)
  · simp only [Except.ok.injEq] at h
    rw [← h]
    exact ⟨rfl, rfl⟩

/-- Claim C22.  Client readiness accessors (groups with `N > 0`): for every
client returned by `NewClient` and every sequence of calls (`Compute`,
`SetIdentity`) in which no `Compute` returned without error, `S()` and `U()`
both return the not-ready error; and right after a `Compute` that returned no
error, on any client, `U()` returns the minimal big-endian bytes of the
scrambling parameter `u` and `S()` those of the premaster secret
`computeClientS(a, B, k, u, x)`, both without error. -/
theorem Client_accessors (srp : SRP) (hN : 0 < srp.g.N) (identity password rnd : Bytes)
    (c0 : Client) (calls : List ClientCall) (c : Client) (hNc : 0 < c.s.g.N)
    (salt xB m1 : Bytes)
    (hnew : srp.NewClient identity password rnd = .ok c0)
    (hfail : (c0.calls calls).2 = false)
    (hok : (c.Compute salt xB).2 = .ok m1) :
    ((c0.calls calls).1.S = .error .clientNotReady
      ∧ (c0.calls calls).1.U = .error .clientNotReady)
    ∧ ∃ u : Nat, c.s.computeU c.xA (SetBytes xB : Int) = .ok u
        ∧ (c.Compute salt xB).1.U = .ok (Bytes.ofInt (u : Int))
        ∧ IsMinimalBE u (Bytes.ofInt (u : Int))
        ∧ (c.Compute salt xB).1.S
            = .ok (Bytes.ofInt (c.s.computeClientS c.a (SetBytes xB : Int) c.s.multiplier u
                (c.s.computeX c.identity c.password salt)))
        ∧ IsMinimalBE (c.s.computeClientS c.a (SetBytes xB : Int) c.s.multiplier u
              (c.s.computeX c.identity c.password salt)).natAbs
            (Bytes.ofInt (c.s.computeClientS c.a (SetBytes xB : Int) c.s.multiplier u
              (c.s.computeX c.identity c.password salt))) := by
  have _ := hN
  have _ := hNc
  obtain ⟨n1, n2⟩ := NewClient_not_ready srp identity password rnd c0 hnew
  obtain ⟨g1, g2⟩ := Client_calls_not_ready calls c0 n1 n2 hfail
  refine ⟨⟨by simp only [Client.S, g1], by simp only [Client.U, g2]⟩, ?_⟩
  by_cases h0 : bigMod (SetBytes xB : Int) c.s.g.N = 0
  · simp [Client.Compute, h0] at hok
  cases hu : c.s.computeU c.xA (SetBytes xB : Int) with
  | error e => simp [Client.Compute, h0, hu] at hok
  | ok u =>
    refine ⟨u, rfl, ?_, ?_, ?_, ofInt_isMinimalBE _⟩
    · simp only [Client.Compute, h0, hu, if_false, Client.U]
    · have := ofInt_isMinimalBE (u : Int)
      rwa [Int.natAbs_ofNat] at this
    · simp only [Client.Compute, h0, hu, if_false, Client.S]

/-- An instance of C22: the example client after a `Compute` rejected for the
server public value 17 (hex) and a `SetIdentity`, and after the `Compute` on
salt 03 and the server public value 11 (hex). -/
theorem Client_accessors_witness :
    ((0 : Int) < exampleSRP.g.N ∧ (0 : Int) < exampleClient.s.g.N
      ∧ exampleSRP.NewClient [1] [2] [2] = .ok exampleClient
      ∧ (exampleClient.calls [.Compute [3] [23], .SetIdentity [4]]).2 = false
      ∧ (exampleClient.Compute [3] [17]).2 = .ok [18])
    ∧ (((exampleClient.calls [.Compute [3] [23], .SetIdentity [4]]).1.S
          = .error .clientNotReady
        ∧ (exampleClient.calls [.Compute [3] [23], .SetIdentity [4]]).1.U
          = .error .clientNotReady)
      ∧ ∃ u : Nat, exampleClient.s.computeU exampleClient.xA (SetBytes [17] : Int) = .ok u
          ∧ (exampleClient.Compute [3] [17]).1.U = .ok (Bytes.ofInt (u : Int))
          ∧ IsMinimalBE u (Bytes.ofInt (u : Int))
          ∧ (exampleClient.Compute [3] [17]).1.S
              = .ok (Bytes.ofInt (exampleClient.s.computeClientS exampleClient.a
                  (SetBytes [17] : Int) exampleClient.s.multiplier u
                  (exampleClient.s.computeX exampleClient.identity exampleClient.password [3])))
          ∧ IsMinimalBE (exampleClient.s.computeClientS exampleClient.a
                (SetBytes [17] : Int) exampleClient.s.multiplier u
                (exampleClient.s.computeX exampleClient.identity exampleClient.password
                  [3])).natAbs
              (Bytes.ofInt (exampleClient.s.computeClientS exampleClient.a
                (SetBytes [17] : Int) exampleClient.s.multiplier u
                (exampleClient.s.computeX exampleClient.identity exampleClient.password
                  [3])))) :=
  ⟨⟨by decide, by decide, rfl, by decide, by decide⟩,
    Client_accessors exampleSRP (by decide) [1] [2] [2] exampleClient
      [.Compute [3] [23], .SetIdentity [4]] exampleClient (by decide) [3] [17] [18] rfl
      (by decide) (by decide)⟩

/-! ## The mixing step of `M1` -/

theorem xorBytes_count (dst x y : Bytes) :
    (xorBytes dst x y).2 = min dst.length (min x.length y.length) := by
  unfold xorBytes
  simp only
  split_ifs <;> simp only [] <;> omega

theorem xorBytes_eq (dst x y : Bytes) :
    (xorBytes dst x y).1
      = List.zipWith (fun p q => p ^^^ q) (x.take (min dst.length (min x.length y.length)))
          (y.take (min dst.length (min x.length y.length)))
        ++ dst.drop (min dst.length (min x.length y.length)) := by
  have hn : (if dst.length < (if y.length < x.length then y.length else x.length) then dst.length
      else (if y.length < x.length then y.length else x.length))
      = min dst.length (min x.length y.length) := by
    split_ifs <;> omega
  unfold xorBytes
  simp only [hn]
  by_cases h0 : min dst.length (min x.length y.length) = 0
  · simp [h0]
  · simp [h0]

theorem xorBytes_spec (dst x y : Bytes) :
    (xorBytes dst x y).2 = min dst.length (min x.length y.length)
    ∧ (xorBytes dst x y).1.length = dst.length
    ∧ (∀ i, i < min dst.length (min x.length y.length) →
        (xorBytes dst x y).1[i]? = some (x.getD i 0 ^^^ y.getD i 0))
    ∧ (∀ i, min dst.length (min x.length y.length) ≤ i → (xorBytes dst x y).1[i]? = dst[i]?) := by
  refine ⟨xorBytes_count dst x y, ?_, ?_, ?_⟩
  · rw [xorBytes_eq]
    simp only [List.length_append, List.length_zipWith, List.length_take, List.length_drop]
    omega
  · intro i hi
    rw [xorBytes_eq]
    have hx : i < x.length := by omega
    have hy : i < y.length := by omega
    have hl : i < (List.zipWith (fun p q => p ^^^ q)
        (x.take (min dst.length (min x.length y.length)))
        (y.take (min dst.length (min x.length y.length)))).length := by
      simp only [List.length_zipWith, List.length_take]
      omega
    rw [List.getElem?_append_left hl, List.getElem?_eq_getElem hl]
    simp only [List.getElem_zipWith, List.getElem_take, List.getD_eq_getElem?_getD,
      List.getElem?_eq_getElem hx, List.getElem?_eq_getElem hy, Option.getD_some]
  · intro i hi
    rw [xorBytes_eq]
    have hl : (List.zipWith (fun p q => p ^^^ q)
        (x.take (min dst.length (min x.length y.length)))
        (y.take (min dst.length (min x.length y.length)))).length
        = min dst.length (min x.length y.length) := by
      simp only [List.length_zipWith, List.length_take]
      omega
    rw [List.getElem?_append_right (by omega), hl, List.getElem?_drop]
    congr 1
    omega

/-- Claim C23.  The mixing step of `M1`: for every hash whose digest length
equals its declared `Size()` and every group, `computeM1(A, B, K, identity,
salt)` is `HashBytes(X, HashBytes(identity), salt, A.Bytes(), B.Bytes(), K)`
for an `X` of exactly digest-length bytes with
`X[i] = HashBytes(N.Bytes())[i] XOR HashBytes(g.Bytes())[i]` at every index of
the digest; and `xorBytes(dst, x, y)` returns
`min(len dst, len x, len y)`, writes `x[i] XOR y[i]` below that index and
leaves the rest of `dst`, and its length, unchanged. -/
theorem computeM1_mixing (s : SRP) (hh : ∀ z, (s.h.sum z).length = s.h.size) (xA xB : Int)
    (xK identity salt dst x y : Bytes) :
    (∃ X : Bytes, X.length = s.h.size
      ∧ (∀ i, i < s.h.size →
          X[i]? = some ((s.HashBytes [Bytes.ofInt s.g.N]).getD i 0
            ^^^ (s.HashBytes [Bytes.ofInt s.g.G]).getD i 0))
      ∧ s.computeM1 xA xB xK identity salt
          = s.HashBytes [X, s.HashBytes [identity], salt, Bytes.ofInt xA, Bytes.ofInt xB, xK])
    ∧ ((xorBytes dst x y).2 = min dst.length (min x.length y.length)
      ∧ (xorBytes dst x y).1.length = dst.length
      ∧ (∀ i, i < min dst.length (min x.length y.length) →
          (xorBytes dst x y).1[i]? = some (x.getD i 0 ^^^ y.getD i 0))
      ∧ (∀ i, min dst.length (min x.length y.length) ≤ i →
          (xorBytes dst x y).1[i]? = dst[i]?)) := by
  refine ⟨?_, xorBytes_spec dst x y⟩
  have h1 : (s.HashBytes [Bytes.ofInt s.g.N]).length = s.h.size := hh _
  have h2 : (s.HashBytes [Bytes.ofInt s.g.G]).length = s.h.size := hh _
  obtain ⟨_, hl, hi, _⟩ := xorBytes_spec (List.replicate s.h.size (0 : Byte))
    (s.HashBytes [Bytes.ofInt s.g.N]) (s.HashBytes [Bytes.ofInt s.g.G])
  rw [List.length_replicate] at hl
  refine ⟨_, hl, ?_, rfl⟩
  intro i hlt
  apply hi
  rw [List.length_replicate, h1, h2]
  omega

/-- An instance of C23: the context with `sumHash`, and `xorBytes` on buffers
of 3, 2 and 4 bytes. -/
theorem computeM1_mixing_witness :
    (∀ z, (sumSRP.h.sum z).length = sumSRP.h.size)
    ∧ ((∃ X : Bytes, X.length = sumSRP.h.size
        ∧ (∀ i, i < sumSRP.h.size →
            X[i]? = some ((sumSRP.HashBytes [Bytes.ofInt sumSRP.g.N]).getD i 0
              ^^^ (sumSRP.HashBytes [Bytes.ofInt sumSRP.g.G]).getD i 0))
        ∧ sumSRP.computeM1 2 17 [18] [1] [3]
            = sumSRP.HashBytes [X, sumSRP.HashBytes [[1]], [3], Bytes.ofInt 2, Bytes.ofInt 17,
                [18]])
      ∧ ((xorBytes [9, 9, 9] [1, 2] [3, 4, 5, 6]).2
          = min ([9, 9, 9] : Bytes).length
              (min ([1, 2] : Bytes).length ([3, 4, 5, 6] : Bytes).length)
        ∧ (xorBytes [9, 9, 9] [1, 2] [3, 4, 5, 6]).1.length = ([9, 9, 9] : Bytes).length
        ∧ (∀ i, i < min ([9, 9, 9] : Bytes).length
              (min ([1, 2] : Bytes).length ([3, 4, 5, 6] : Bytes).length) →
            (xorBytes [9, 9, 9] [1, 2] [3, 4, 5, 6]).1[i]?
              = some (([1, 2] : Bytes).getD i 0 ^^^ ([3, 4, 5, 6] : Bytes).getD i 0))
        ∧ (∀ i, min ([9, 9, 9] : Bytes).length
              (min ([1, 2] : Bytes).length ([3, 4, 5, 6] : Bytes).length) ≤ i →
            (xorBytes [9, 9, 9] [1, 2] [3, 4, 5, 6]).1[i]? = ([9, 9, 9] : Bytes)[i]?))) :=
  ⟨fun _ => rfl,
    computeM1_mixing sumSRP (fun _ => rfl) 2 17 [18] [1] [3] [9, 9, 9] [1, 2] [3, 4, 5, 6]⟩

/-! ## Fixed-width padding -/

theorem SetBytes_zeros_append (k : Nat) (b : Bytes) :
    SetBytes (List.replicate k (0 : Byte) ++ b) = SetBytes b := by
  induction k with
  | zero => rfl
  | succ k ih =>
    rw [List.replicate_succ, List.cons_append, SetBytes_cons, ih]
    simp

theorem lt_pow_length_ofInt (x : Nat) : x < 256 ^ (Bytes.ofInt (x : Int)).length := by
  have h := SetBytes_lt (Bytes.ofInt (x : Int))
  rwa [SetBytes_ofInt, Int.natAbs_ofNat] at h

theorem Pad_eq (x n : Nat) :
    SetBytes (Pad (x : Int) (n : Int)) = x
    ∧ (if x < 256 ^ n then
        (Pad (x : Int) (n : Int)).length = n
        ∧ Pad (x : Int) (n : Int)
            = List.replicate (n - (Bytes.ofInt (x : Int)).length) (0 : Byte)
                ++ Bytes.ofInt (x : Int)
      else Pad (x : Int) (n : Int) = Bytes.ofInt (x : Int)
        ∧ n < (Pad (x : Int) (n : Int)).length) := by
  have hv : SetBytes (Bytes.ofInt (x : Int)) = x := by
    rw [SetBytes_ofInt, Int.natAbs_ofNat]
  have hup := lt_pow_length_ofInt x
  by_cases hlt : (Bytes.ofInt (x : Int)).length < n
  · have hc : ((Bytes.ofInt (x : Int)).length : Int) < (n : Int) := by omega
    have hk : ((n : Int) - ((Bytes.ofInt (x : Int)).length : Int)).toNat
        = n - (Bytes.ofInt (x : Int)).length := by omega
    have hp : Pad (x : Int) (n : Int)
        = List.replicate (n - (Bytes.ofInt (x : Int)).length) (0 : Byte)
            ++ Bytes.ofInt (x : Int) := by
      simp only [Pad, hc, if_true, hk]
    have hx : x < 256 ^ n :=
      Nat.lt_trans hup (Nat.pow_lt_pow_right (by decide) hlt)
    rw [if_pos hx, hp]
    refine ⟨by rw [SetBytes_zeros_append, hv], ?_, rfl⟩
    simp only [List.length_append, List.length_replicate]
    omega
  · have hc : ¬ (((Bytes.ofInt (x : Int)).length : Int) < (n : Int)) := by omega
    have hp : Pad (x : Int) (n : Int) = Bytes.ofInt (x : Int) := by
      simp only [Pad, hc, if_false]
    rw [hp]
    refine ⟨hv, ?_⟩
    by_cases hx : x < 256 ^ n
    · have hle : (Bytes.ofInt (x : Int)).length ≤ n := by
        unfold Bytes.ofInt
        rw [Int.natAbs_ofNat]
        exact natBytes_length_le n _ _ hx
      have he : (Bytes.ofInt (x : Int)).length = n := by omega
      rw [if_pos hx, he, Nat.sub_self]
      exact ⟨rfl, rfl⟩
    · rw [if_neg hx]
      refine ⟨rfl, ?_⟩
      by_contra hcon
      have hle : (Bytes.ofInt (x : Int)).length ≤ n := by omega
      exact hx (Nat.lt_of_lt_of_le hup (Nat.pow_le_pow_right (by decide) hle))

/-- Claim C24.  Fixed-width zero padding: for every non-negative integer `x`
and every `n ≥ 0`, `util.Pad(x, n)` reads as `x`; when `x < 256^n` it has
exactly `n` bytes, the minimal encoding of `x` left-filled with zero bytes,
and when `x ≥ 256^n` it is the minimal encoding of `x` unchanged, longer than
`n`. -/
theorem Pad_spec (x n : Nat) :
    SetBytes (Pad (x : Int) (n : Int)) = x
    ∧ IsMinimalBE x (Bytes.ofInt (x : Int))
    ∧ (if x < 256 ^ n then
        (Pad (x : Int) (n : Int)).length = n
        ∧ Pad (x : Int) (n : Int)
            = List.replicate (n - (Bytes.ofInt (x : Int)).length) (0 : Byte)
                ++ Bytes.ofInt (x : Int)
      else Pad (x : Int) (n : Int) = Bytes.ofInt (x : Int)
        ∧ n < (Pad (x : Int) (n : Int)).length) :=
  ⟨(Pad_eq x n).1,
    by have h := ofInt_isMinimalBE (x : Int); rwa [Int.natAbs_ofNat] at h,
    (Pad_eq x n).2⟩

/-! ## The padding of the Cognito variant -/

/-- Claim C25, the code at the failing input: `cognito.Pad` on the empty byte
string panics (`b[0]` is out of range), and so do `cognito.ComputeX` on an
empty salt and `cognito.ComputeU` on a public value 0; on a non-empty byte
string `Pad` does what the claim says. -/
theorem Cognito_Pad_panics_on_empty :
    Cognito.Pad [] = .error .runtimePanic
    ∧ (∀ (s : SRP) (identity password : Bytes),
        Cognito.ComputeX s identity password [] = .error .runtimePanic)
    ∧ (∀ (s : SRP) (xB : Int), Cognito.ComputeU s 0 xB = .error .runtimePanic)
    ∧ (∀ (b0 : Byte) (rest : Bytes),
        Cognito.Pad (b0 :: rest)
          = if 128 ≤ b0.val then .ok ((0 : Byte) :: b0 :: rest) else .ok (b0 :: rest)) :=
  ⟨rfl, fun _ _ _ => rfl, fun _ _ => rfl, fun _ _ => rfl⟩

/-! ## The ISV encoding is canonical -/

theorem ISV_canonical_aux (i0 : ISV) (b : Bytes) (h : (i0.UnmarshalBinary b).2 = none) :
    (i0.UnmarshalBinary b).1.MarshalBinary = .ok b := by
  have he : i0.UnmarshalBinary b
      = (⟨(i0.UnmarshalBinary b).1.Identity, (i0.UnmarshalBinary b).1.Salt,
          (i0.UnmarshalBinary b).1.Verifier⟩, none) := by
    rw [← h]
  obtain ⟨⟨l1, l2, l3⟩, hb⟩ := ISV_UnmarshalBinary_eq_ok i0 b _ _ _ he
  rw [ISV_MarshalBinary_ok _ l1 l2 l3]
  conv_rhs => rw [hb]
  simp

/-- Claim C26.  The ISV encoding is canonical: for every byte string `b` that
`ISV.UnmarshalBinary` accepts, `MarshalBinary` of the decoded ISV succeeds
and returns exactly `b`; hence two distinct accepted byte strings never decode
to the same ISV. -/
theorem ISV_canonical (i0 i1 : ISV) (b b' : Bytes) (h : (i0.UnmarshalBinary b).2 = none)
    (h' : (i1.UnmarshalBinary b').2 = none) (hne : b ≠ b') :
    (i0.UnmarshalBinary b).1.MarshalBinary = .ok b
    ∧ (i0.UnmarshalBinary b).1 ≠ (i1.UnmarshalBinary b').1 := by
  refine ⟨ISV_canonical_aux i0 b h, ?_⟩
  intro heq
  have e1 := ISV_canonical_aux i0 b h
  have e2 := ISV_canonical_aux i1 b' h'
  rw [heq, e2] at e1
  simp only [Except.ok.injEq] at e1
  exact hne e1.symm

/-- An instance of C26: the encoding of (01, 02, 03) and the encoding of the
ISV with empty identity, empty salt and verifier 07. -/
theorem ISV_canonical_witness :
    ((ISV.UnmarshalBinary ⟨[], [], []⟩ exampleISVBytes).2 = none
      ∧ (ISV.UnmarshalBinary ⟨[], [], []⟩ [0, 0, 0, 0, 0, 1, 7]).2 = none
      ∧ exampleISVBytes ≠ [0, 0, 0, 0, 0, 1, 7])
    ∧ ((ISV.UnmarshalBinary ⟨[], [], []⟩ exampleISVBytes).1.MarshalBinary = .ok exampleISVBytes
      ∧ (ISV.UnmarshalBinary ⟨[], [], []⟩ exampleISVBytes).1
          ≠ (ISV.UnmarshalBinary ⟨[], [], []⟩ [0, 0, 0, 0, 0, 1, 7]).1) :=
  ⟨⟨by decide, by decide, by decide⟩,
    ISV_canonical ⟨[], [], []⟩ ⟨[], [], []⟩ exampleISVBytes [0, 0, 0, 0, 0, 1, 7] (by decide)
      (by decide) (by decide)⟩

end Srp
